import Mathlib

/-!
# Verification of `benchmarking/scripts/benchmark-pages.py`

A shallow embedding of the benchmark GitHub-Pages helper script.  The script
manipulates only the filesystem, so the embedding models a directory as a
finite list of named entries (`Entry`), where an entry is either a file with
string content or a nested directory.  Directory listings of a real
filesystem never repeat a name; where a proof needs that fact it appears as
an explicit `Nodup`/`wfE` hypothesis.

Modelled functions (names follow the Python source):

* `_copy_json_files`  → `copyJsonFiles` (over directory listings) and
  `copyJsonFs` (including the `mkdir(parents=True, exist_ok=True)` on the
  destination and the behaviour of `glob` on an absent source directory);
* `_enforce_retention` → `retentionList` / `enforceRetention`;
* `prepare_history`   → `prepare_history`;
* `assemble`          → `assemble` (the loops over the fixed two-element
  module list are unrolled into explicit `micro`/`integration` steps;
  `shutil.copytree(..., dirs_exist_ok=True)` is `copytree`; the ambient
  clock `datetime.now` is passed in as the pre-formatted string `now`).

Machine-level behaviours outside the claims (e.g. `shutil.copy2` applied to
a directory raising `IsADirectoryError`) are not modelled: the copy
primitives act on file entries, exactly the situation the script is run in.
-/

/-- A filesystem entry: a file with (opaque string) content, or a directory
holding a list of named entries. -/
inductive Entry where
  | file (content : String)
  | dir (entries : List (String × Entry))
deriving Repr

/-- The names listed in a directory. -/
def keys (es : List (String × Entry)) : List String := es.map Prod.fst

/-- Look up the entry with a given name (first occurrence). -/
def lookupE : List (String × Entry) → String → Option Entry
  | [], _ => none
  | (m, e) :: rest, n => if m = n then some e else lookupE rest n

/-- `Path.exists()` relative to a directory listing. -/
def hasKey (es : List (String × Entry)) (n : String) : Bool :=
  (lookupE es n).isSome

/-- Write an entry under a name: replace the (first) existing binding of the
name, else append a new binding — the filesystem-update primitive. -/
def setEntry : List (String × Entry) → String → Entry → List (String × Entry)
  | [], n, e => [(n, e)]
  | (m, e0) :: rest, n, e =>
      if m = n then (n, e) :: rest else (m, e0) :: setEntry rest n e

/-- The child of an optional directory entry, `none` when the parent is
absent or is a file. -/
def getChild (e : Option Entry) (n : String) : Option Entry :=
  match e with
  | some (.dir es) => lookupE es n
  | _ => none

/-- `Path.is_dir()`. -/
def isDirO (e : Option Entry) : Bool :=
  match e with
  | some (.dir _) => true
  | _ => false

/-- Set a child inside a possibly-absent directory, creating the directory
when absent (`mkdir(parents=True, exist_ok=True)` followed by the write). -/
def setChildE (e : Option Entry) (n : String) (v : Entry) : Entry :=
  match e with
  | some (.dir es) => .dir (setEntry es n v)
  | _ => .dir [(n, v)]

/-- `output_dir.mkdir(parents=True, exist_ok=True)`: the listing of the
directory, created empty when absent. -/
def ensureDirEs (e : Option Entry) : List (String × Entry) :=
  match e with
  | some (.dir es) => es
  | _ => []

/-- `(output_dir / n).mkdir(exist_ok=True)`: keep an existing directory,
create an empty one otherwise. -/
def ensureChildDir (es : List (String × Entry)) (n : String) :
    List (String × Entry) :=
  match lookupE es n with
  | some (.dir _) => es
  | _ => setEntry es n (.dir [])

/-- Whether a filename matches the glob pattern `*.json`, i.e. ends with
`.json` (computed on the character list, the definition of
`String.endsWith`, so that concrete instances evaluate). -/
def isJson (n : String) : Bool := ".json".data.isSuffixOf n.data

/-- A duplicate-free list of names, as a Boolean (directory listings of a
real filesystem satisfy it). -/
def nodupKeys : List String → Bool
  | [] => true
  | n :: rest => !rest.contains n && nodupKeys rest

mutual
/-- Well-formed entry: every directory in the tree lists pairwise-distinct
names — true of every real filesystem tree. -/
def Entry.wfE : Entry → Bool
  | .file _ => true
  | .dir es => nodupKeys (keys es) && wfList es

def wfList : List (String × Entry) → Bool
  | [] => true
  | (_, e) :: rest => e.wfE && wfList rest
end

/-- Well-formedness of a possibly-absent entry. -/
def wfO : Option Entry → Bool
  | none => true
  | some e => e.wfE

/-- `_copy_json_files` over directory listings: fold over the source
listing (the iteration order of `glob`), copying every file entry whose
name matches `*.json`; with `skip` set, an entry is not copied (and not
counted) when its name already exists at the destination — the
`dst.exists()` test runs against the destination as it grows, exactly as in
the Python loop.  Returns the new destination listing and the count. -/
def copyJsonFiles : List (String × Entry) → List (String × Entry) → Bool →
    List (String × Entry) × Nat
  | [], dst, _ => (dst, 0)
  | (n, .file c) :: rest, dst, skip =>
      if isJson n then
        if skip && hasKey dst n then copyJsonFiles rest dst skip
        else
          let r := copyJsonFiles rest (setEntry dst n (.file c)) skip
          (r.1, r.2 + 1)
      else copyJsonFiles rest dst skip
  | (_, .dir _) :: rest, dst, skip => copyJsonFiles rest dst skip

/-- `_copy_json_files` at the filesystem level: the destination directory is
created first (`dst_dir.mkdir(parents=True, exist_ok=True)`), so the result
directory always exists; `glob` over an absent (or file) source yields
nothing. -/
def copyJsonFs (src dst : Option Entry) (skip : Bool) : Entry × Nat :=
  let srcEs := match src with
    | some (.dir es) => es
    | _ => []
  let r := copyJsonFiles srcEs (ensureDirEs dst) skip
  (.dir r.1, r.2)

/-- `sorted(..., reverse=True)` on filenames: descending lexicographic
order (Python compares the paths, which share the directory prefix, so the
order is that of the names). -/
def sortDescNames (l : List String) : List String :=
  (l.insertionSort (fun a b => a ≤ b)).reverse

/-- The names in a listing that match `*.json` (what
`history_dir.glob("*.json")` yields). -/
def jsonKeys (es : List (String × Entry)) : List String :=
  (keys es).filter isJson

/-- `_enforce_retention` over the listing of an existing history directory:
sort the `*.json` names descending, unlink every file beyond the first
`maxFiles`.  Returns the new listing and the number removed. -/
def retentionList (es : List (String × Entry)) (maxFiles : Nat) :
    List (String × Entry) × Nat :=
  let doomed := (sortDescNames (jsonKeys es)).drop maxFiles
  (es.filter (fun p => !doomed.contains p.1), doomed.length)

/-- `_enforce_retention` at the filesystem level: when the history path is
not a directory the function returns 0 without touching anything. -/
def enforceRetention (h : Option Entry) (maxFiles : Nat) :
    Option Entry × Nat :=
  match h with
  | some (.dir es) =>
      let r := retentionList es maxFiles
      (some (.dir r.1), r.2)
  | _ => (h, 0)

mutual
/-- `shutil.copytree(src, dst, dirs_exist_ok=True)`: recursively copy the
source tree onto the (possibly absent) destination.  A source file
overwrites the same-named destination entry; a source directory is merged
into a same-named destination directory; destination entries with no
same-named source entry are kept. -/
def copytree : Entry → Option Entry → Entry
  | .file c, _ => .file c
  | .dir es, some (.dir ds) => .dir (copyInto es ds)
  | .dir es, _ => .dir (copyInto es [])

def copyInto : List (String × Entry) → List (String × Entry) →
    List (String × Entry)
  | [], ds => ds
  | (n, e) :: rest, ds =>
      copyInto rest (setEntry ds n (copytree e (lookupE ds n)))
end

/-- `_BADGE_MAPPING`: pairs (source badge filename, destination filename),
in the insertion order of the Python dict. -/
def badgeMapping (name : String) : List (String × String) :=
  if name = "micro" then
    [("performance-badge.json", "performance-badge.json"),
     ("trend-badge.json", "trend-badge.json"),
     ("last-run-badge.json", "last-run-badge.json")]
  else if name = "integration" then
    [("integration-performance-badge.json", "integration-performance-badge.json"),
     ("integration-trend-badge.json", "integration-trend-badge.json"),
     ("last-run-badge.json", "integration-last-run-badge.json")]
  else []

/-- `_BENCHMARK_TYPES`. -/
def benchmarkTypes : List String := ["micro", "integration"]

/-- `_DEFAULT_MAX_HISTORY`. -/
def defaultMaxHistory : Nat := 10

/-- The text written to `metadata.json`:
`json.dumps({"timestamp": now, "commit": sha}, indent=2) + "\n"`. -/
def metadataContent (now sha : String) : String :=
  "\x7b\n  \"timestamp\": \"" ++ now ++ "\",\n  \"commit\": \"" ++ sha
    ++ "\"\n\x7d\n"

/-- The combine-phase warning `f"Warning: {name} results not found at {results_dir}, skipping"`. -/
def warnMsg (name path : String) : String :=
  "Warning: " ++ name ++ " results not found at " ++ path ++ ", skipping"

/-- `f"Merged {count} previous {name} history files"`. -/
def mergedMsg (count : Nat) (name : String) : String :=
  "Merged " ++ toString count ++ " previous " ++ name ++ " history files"

/-- `f"Removed {removed} old {name} history files (retention: {max_history})"`. -/
def removedMsg (count : Nat) (name : String) (maxHistory : Nat) : String :=
  "Removed " ++ toString count ++ " old " ++ name
    ++ " history files (retention: " ++ toString maxHistory ++ ")"

/-- `f"Copied {name} benchmark artifacts to {output_dir / name}"`. -/
def copiedMsg (name outputDir : String) : String :=
  "Copied " ++ name ++ " benchmark artifacts to " ++ outputDir ++ "/" ++ name

/-- `f"Prepared {count} {benchmark_type} history files"`. -/
def preparedMsg (count : Nat) (ty : String) : String :=
  "Prepared " ++ toString count ++ " " ++ ty ++ " history files"

/-- `f"No previous pages directory found at {previous_dir}, skipping history preparation"`. -/
def noPrevMsg (path : String) : String :=
  "No previous pages directory found at " ++ path
    ++ ", skipping history preparation"

/-- The `prepare-history` command: `prevPath` is the `--previous-pages-dir`
argument (used in the message), `prev` the tree at that path, `output` the
tree at `--output-dir`.  Returns the new output tree and the printed
messages. -/
def prepare_history (prevPath : String) (prev output : Option Entry) :
    Option Entry × List String :=
  if !isDirO prev then
    (output, [noPrevMsg prevPath])
  else
    benchmarkTypes.foldl
      (fun acc ty =>
        let historySrc := getChild (getChild prev ty) "history"
        if isDirO historySrc then
          let r := copyJsonFs historySrc (getChild acc.1 ty) false
          (some (setChildE acc.1 ty r.1), acc.2 ++ [preparedMsg r.2 ty])
        else acc)
      (output, [])

/-- One module of the assemble merge phase (inside
`if previous_dir and previous_dir.is_dir():`): when
`<prev>/<name>/history` is a directory, `_copy_json_files` it into
`<results>/history` with `skip_existing=True` (which creates the results
directory and its `history/` when absent), else do nothing. -/
def mergeOneModule (prevHistory res : Option Entry) (name : String) :
    Option Entry × List String :=
  if isDirO prevHistory then
    let r := copyJsonFs prevHistory (getChild res "history") true
    (some (setChildE res "history" r.1), [mergedMsg r.2 name])
  else (res, [])

/-- One module of the assemble retention phase: `_enforce_retention` on
`<results>/history`; a message is printed only when files were removed. -/
def retentionOneModule (res : Option Entry) (maxHistory : Nat)
    (name : String) : Option Entry × List String :=
  match getChild res "history" with
  | some (.dir es) =>
      let r := retentionList es maxHistory
      (some (setChildE res "history" (.dir r.1)),
       if r.2 = 0 then [] else [removedMsg r.2 name maxHistory])
  | _ => (res, [])

/-- Promote one badge-mapping pair: `if src.is_file(): shutil.copy2(src, badges_dir / dst_name)`. -/
def copyBadge (badges : List (String × Entry)) (moduleBadges : Option Entry)
    (srcName dstName : String) : List (String × Entry) :=
  match getChild moduleBadges srcName with
  | some (.file c) => setEntry badges dstName (.file c)
  | _ => badges

/-- One module of the assemble combine phase, acting on the output-directory
listing: warn and skip when the results directory is absent; otherwise
`copytree` the results into `<output>/<name>` and promote the mapped badge
files into `<output>/badges`. -/
def combineOneModule (res : Option Entry) (name path outputDir : String)
    (outEs : List (String × Entry)) :
    List (String × Entry) × List String :=
  match res with
  | some (.dir rs) =>
      let outEs1 := setEntry outEs name (copytree (.dir rs) (lookupE outEs name))
      let mb := lookupE rs "badges"
      let outEs2 :=
        match mb with
        | some (.dir _) =>
            let b0 := match lookupE outEs1 "badges" with
              | some (.dir bs) => bs
              | _ => []
            let b1 := (badgeMapping name).foldl
              (fun bs pr => copyBadge bs mb pr.1 pr.2) b0
            setEntry outEs1 "badges" (.dir b1)
        | _ => outEs1
      (outEs2, [copiedMsg name outputDir])
  | _ => (outEs, [warnMsg name path])

/-- Python truthiness of an optional string CLI argument
(`if args.micro_results:`): absent and empty strings are falsy. -/
def truthy : Option String → Bool
  | none => false
  | some s => !s.isEmpty

/-- The CLI arguments of the `assemble` subcommand, plus the ambient clock
`now` already formatted as `%Y-%m-%dT%H:%M:%SZ`. -/
structure AssembleIn where
  microResults : Option String
  integrationResults : Option String
  previousPagesDir : Option String
  outputDir : String
  commitSha : String
  maxHistory : Nat
  now : String

/-- The filesystem state seen by `assemble`: the trees at the four roots
named by the CLI arguments (`none` = path absent).  The roots are distinct
paths in the intended deployment, so they are separate fields. -/
structure FsState where
  micro : Option Entry
  integration : Option Entry
  prev : Option Entry
  output : Option Entry
deriving Repr

/-- The phases of the `assemble` subcommand after the argument check (the
four numbered steps of the Python function, in order; the loops over the
configured-module list are unrolled: micro first, then integration,
matching the construction order of `modules`).  Returns the final state
and the printed messages. -/
def assembleRun (a : AssembleIn) (st : FsState) : FsState × List String :=
    let doMicro := truthy a.microResults
    let doInteg := truthy a.integrationResults
    let prevOk := truthy a.previousPagesDir && isDirO st.prev
    -- Phase 1: merge previous history (skip_existing=True)
    let p1m := if doMicro && prevOk then
        mergeOneModule (getChild (getChild st.prev "micro") "history")
          st.micro "micro"
      else (st.micro, [])
    let p1i := if doInteg && prevOk then
        mergeOneModule (getChild (getChild st.prev "integration") "history")
          st.integration "integration"
      else (st.integration, [])
    -- Phase 2: enforce retention per module
    let p2m := if doMicro then retentionOneModule p1m.1 a.maxHistory "micro"
      else (p1m.1, [])
    let p2i := if doInteg then retentionOneModule p1i.1 a.maxHistory "integration"
      else (p1i.1, [])
    -- Phase 3: combine into the output directory
    let outEs0 := ensureDirEs st.output
    let outEs1 := ensureChildDir outEs0 "badges"
    let c3m := if doMicro then
        combineOneModule p2m.1 "micro" (a.microResults.getD "") a.outputDir outEs1
      else (outEs1, [])
    let c3i := if doInteg then
        combineOneModule p2i.1 "integration" (a.integrationResults.getD "")
          a.outputDir c3m.1
      else (c3m.1, [])
    -- Phase 4: write deployment metadata
    let outEsF := setEntry c3i.1 "metadata.json"
      (.file (metadataContent a.now a.commitSha))
    let stF : FsState :=
      { st with micro := (p2m.1), integration := (p2i.1),
                output := some (.dir outEsF) }
    (stF, p1m.2 ++ p1i.2 ++ p2m.2 ++ p2i.2 ++ c3m.2 ++ c3i.2)

/-- The `assemble` subcommand.  `sys.exit(1)` before any filesystem write
becomes the `.error` branch; otherwise the four phases of `assembleRun`
execute. -/
def assemble (a : AssembleIn) (st : FsState) :
    Except String (FsState × List String) :=
  if !truthy a.microResults && !truthy a.integrationResults then
    .error "Error: at least one of --micro-results or --integration-results is required"
  else
    .ok (assembleRun a st)

/-! ## Concrete inputs used by the witness theorems -/

/-- A sample history directory listing: three JSON files and one other file. -/
def esW : List (String × Entry) :=
  [("2024-01-01.json", .file "a"), ("notes.txt", .file "n"),
   ("2024-01-03.json", .file "c"), ("2024-01-02.json", .file "b")]

/-- A sample source listing for the copy primitive. -/
def srcW : List (String × Entry) :=
  [("a.json", .file "new"), ("readme.md", .file "r"), ("b.json", .file "bb")]

/-- A sample destination listing for the copy primitive. -/
def dstW : List (String × Entry) := [("a.json", .file "old")]

/-- Sample assemble arguments: micro configured, no integration, previous
pages supplied. -/
def aW : AssembleIn :=
  ⟨some "core/gh-pages-ready", none, some "previous-pages", "gh-pages",
   "abc123", 10, "2024-01-01T00:00:00Z"⟩

/-- Sample state: micro results absent, previous pages hold micro history. -/
def stW : FsState :=
  ⟨none, none,
   some (.dir [("micro",
     .dir [("history", .dir [("2024-01-01.json", .file "h")])])]),
   none⟩

/-- Sample integration badges directory. -/
def bsW : List (String × Entry) := [("last-run-badge.json", .file "lrb")]

/-- Sample integration results directory. -/
def rsW : List (String × Entry) := [("badges", .dir bsW)]

/-- Sample micro badges directory. -/
def bsW5 : List (String × Entry) := [("performance-badge.json", .file "pm")]

/-- Sample micro results directory. -/
def rsW5 : List (String × Entry) := [("badges", .dir bsW5)]

/-- Sample assemble arguments: both categories configured. -/
def aW5 : AssembleIn :=
  ⟨some "core-res", some "integ-res", none, "gh-pages", "sha", 10, "ts"⟩

/-- Sample state for the badge-promotion witness: both categories hold a
results directory with badges. -/
def stW5 : FsState := ⟨some (.dir rsW5), some (.dir rsW), none, none⟩

/-- The shared output badges directory that the badge-promotion witness
run produces: the micro performance badge plus the integration last-run
badge under its mapped name. -/
def bW5 : List (String × Entry) :=
  [("performance-badge.json", .file "pm"),
   ("integration-last-run-badge.json", .file "lrb")]

/-- One category's merge and retention phases of `assemble`, as applied to
that category's results tree: `doM` is whether the category is configured,
`cM` whether the merge loop body runs for it (category configured and
previous-pages directory present). -/
def modulePipe (doM cM : Bool) (ph res : Option Entry) (name : String)
    (N : Nat) : Option Entry :=
  let p1 := if cM then mergeOneModule ph res name else (res, [])
  (if doM then retentionOneModule p1.1 N name else (p1.1, [])).1

/-- Sample assemble arguments for the idempotence witness (first run). -/
def aW4 : AssembleIn :=
  ⟨some "core-results", none, some "prev-pages", "gh-pages", "sha", 1, "T1"⟩

/-- The same arguments at a later clock (second run). -/
def aW4b : AssembleIn :=
  ⟨some "core-results", none, some "prev-pages", "gh-pages", "sha", 1, "T2"⟩

/-- Sample state for the idempotence witness: a current run in history, a
previous snapshot holding an older and a same-named entry. -/
def stW4 : FsState :=
  ⟨some (.dir [("history", .dir [("2024-02.json", .file "cur")]),
               ("badges", .dir [("performance-badge.json", .file "perf")]),
               ("index.html", .file "page")]),
   none,
   some (.dir [("micro", .dir [("history",
     .dir [("2024-01.json", .file "oldprev"),
           ("2024-02.json", .file "prevver")])])]),
   none⟩

/-! ## Basic lemmas about directory listings -/

theorem lookupE_setEntry_self (es : List (String × Entry)) (n : String)
    (v : Entry) : lookupE (setEntry es n v) n = some v := by
  induction es with
  | nil => simp [setEntry, lookupE]
  | cons p rest ih =>
      obtain ⟨m, e0⟩ := p
      by_cases h : m = n
      · simp [setEntry, h, lookupE]
      · simp [setEntry, h, lookupE, ih]

theorem lookupE_setEntry_ne (es : List (String × Entry)) (n m : String)
    (v : Entry) (h : m ≠ n) :
    lookupE (setEntry es n v) m = lookupE es m := by
  induction es with
  | nil => simp [setEntry, lookupE, Ne.symm h]
  | cons p rest ih =>
      obtain ⟨k, e0⟩ := p
      by_cases hk : k = n
      · subst hk
        simp [setEntry, lookupE, Ne.symm h]
      · simp [setEntry, hk, lookupE, ih]

theorem setEntry_self (es : List (String × Entry)) (n : String) (v : Entry)
    (h : lookupE es n = some v) : setEntry es n v = es := by
  induction es with
  | nil => simp [lookupE] at h
  | cons p rest ih =>
      obtain ⟨m, e0⟩ := p
      by_cases hm : m = n
      · subst hm
        simp [lookupE] at h
        simp [setEntry, h]
      · simp [lookupE, hm] at h
        simp [setEntry, hm, ih h]

theorem setEntry_setEntry (es : List (String × Entry)) (n : String)
    (v w : Entry) : setEntry (setEntry es n v) n w = setEntry es n w := by
  induction es with
  | nil => simp [setEntry]
  | cons p rest ih =>
      obtain ⟨m, e0⟩ := p
      by_cases hm : m = n
      · simp [setEntry, hm]
      · simp [setEntry, hm, ih]

theorem setEntry_absent (es : List (String × Entry)) (n : String) (v : Entry)
    (h : lookupE es n = none) : setEntry es n v = es ++ [(n, v)] := by
  induction es with
  | nil => simp [setEntry]
  | cons p rest ih =>
      obtain ⟨m, e0⟩ := p
      by_cases hm : m = n
      · simp [lookupE, hm] at h
      · simp [lookupE, hm] at h
        simp [setEntry, hm, ih h]

theorem keys_setEntry_present (es : List (String × Entry)) (n : String)
    (v : Entry) (h : (lookupE es n).isSome) :
    keys (setEntry es n v) = keys es := by
  induction es with
  | nil => simp [lookupE] at h
  | cons p rest ih =>
      obtain ⟨m, e0⟩ := p
      by_cases hm : m = n
      · simp [setEntry, hm, keys]
      · simp [lookupE, hm] at h
        simp [setEntry, hm, keys] at ih ⊢
        exact ih h

theorem lookupE_isSome_iff_mem_keys (es : List (String × Entry)) (n : String) :
    (lookupE es n).isSome = true ↔ n ∈ keys es := by
  induction es with
  | nil => simp [lookupE, keys]
  | cons p rest ih =>
      obtain ⟨m, e0⟩ := p
      by_cases hm : m = n
      · simp [lookupE, hm, keys]
      · rw [show keys ((m, e0) :: rest) = m :: keys rest from rfl]
        simp [lookupE, hm, ih, List.mem_cons, Ne.symm hm]

theorem lookupE_none_iff_not_mem_keys (es : List (String × Entry))
    (n : String) : lookupE es n = none ↔ n ∉ keys es := by
  rw [← lookupE_isSome_iff_mem_keys]
  cases h : lookupE es n <;> simp [h]

theorem hasKey_eq_false_iff (es : List (String × Entry)) (n : String) :
    hasKey es n = false ↔ lookupE es n = none := by
  cases h : lookupE es n <;> simp [hasKey, h]

theorem lookupE_append (es fs : List (String × Entry)) (n : String) :
    lookupE (es ++ fs) n =
      (lookupE es n).or (lookupE fs n) := by
  induction es with
  | nil => simp [lookupE]
  | cons p rest ih =>
      obtain ⟨m, e0⟩ := p
      by_cases hm : m = n <;> simp [lookupE, hm, ih]

theorem nodupKeys_iff (l : List String) : nodupKeys l = true ↔ l.Nodup := by
  induction l with
  | nil => simp [nodupKeys]
  | cons n rest ih => simp [nodupKeys, ih, List.elem_iff]

/-- A filter whose predicate holds on every binding of a name preserves the
lookup of that name. -/
theorem lookupE_filter_of_all (es : List (String × Entry))
    (p : String × Entry → Bool) (n : String)
    (h : ∀ e, p (n, e) = true) :
    lookupE (es.filter p) n = lookupE es n := by
  induction es with
  | nil => simp [lookupE]
  | cons q rest ih =>
      obtain ⟨m, e0⟩ := q
      by_cases hm : m = n
      · subst hm
        simp [List.filter_cons, h e0, lookupE]
      · by_cases hp : p (m, e0) = true
        · simp [List.filter_cons, hp, lookupE, hm, ih]
        · simp [List.filter_cons, hp, lookupE, hm, ih]

theorem keys_filter_key (es : List (String × Entry)) (g : String → Bool) :
    keys (es.filter (fun p => g p.1)) = (keys es).filter g := by
  induction es with
  | nil => simp [keys]
  | cons p rest ih =>
      obtain ⟨m, e0⟩ := p
      by_cases hm : g m = true <;>
        simp [List.filter_cons, hm, keys] at ih ⊢ <;> exact ih

/-! ## Lemmas about the File Copy Primitive -/

/-- Skip-existing never touches a name already bound at the destination. -/
theorem copy_lookup_preserved (src : List (String × Entry)) :
    ∀ dst n v, lookupE dst n = some v →
    lookupE (copyJsonFiles src dst true).1 n = some v := by
  induction src with
  | nil => intro dst n v h; simpa [copyJsonFiles]
  | cons p rest ih =>
      intro dst n v h
      obtain ⟨k, e⟩ := p
      match e with
      | .file c =>
          by_cases hj : isJson k = true
          · by_cases hk : hasKey dst k = true
            · simpa [copyJsonFiles, hj, hk] using ih dst n v h
            · have hne : k ≠ n := by
                intro hkn
                subst hkn
                simp [hasKey, h] at hk
              have h2 : lookupE (setEntry dst k (.file c)) n = some v := by
                rw [lookupE_setEntry_ne _ _ _ _ (Ne.symm hne)]; exact h
              simpa [copyJsonFiles, hj, hk] using ih _ n v h2
          · simpa [copyJsonFiles, hj] using ih dst n v h
      | .dir ds => simpa [copyJsonFiles] using ih dst n v h

/-- The copy primitive never binds a name that does not match `*.json`. -/
theorem copy_nonjson_frame (src : List (String × Entry)) :
    ∀ dst skip n, isJson n = false →
    lookupE (copyJsonFiles src dst skip).1 n = lookupE dst n := by
  induction src with
  | nil => intro dst skip n _; simp [copyJsonFiles]
  | cons p rest ih =>
      intro dst skip n hn
      obtain ⟨k, e⟩ := p
      match e with
      | .file c =>
          by_cases hj : isJson k = true
          · have hne : n ≠ k := by
              intro h; rw [h, hj] at hn; exact Bool.noConfusion hn
            rcases Bool.eq_false_or_eq_true (skip && hasKey dst k) with hk | hk
            · simpa [copyJsonFiles, hj, hk] using ih dst skip n hn
            · rw [show (copyJsonFiles ((k, Entry.file c) :: rest) dst skip).1 =
                    (copyJsonFiles rest (setEntry dst k (.file c)) skip).1 by
                  simp [copyJsonFiles, hj, hk]]
              rw [ih _ skip n hn, lookupE_setEntry_ne _ _ _ _ hne]
          · simpa [copyJsonFiles, hj] using ih dst skip n hn
      | .dir ds => simpa [copyJsonFiles] using ih dst skip n hn

/-- Names bound at the destination stay bound through a copy. -/
theorem copy_hasKey_mono (src : List (String × Entry)) :
    ∀ dst skip n, hasKey dst n = true →
    hasKey (copyJsonFiles src dst skip).1 n = true := by
  induction src with
  | nil => intro dst skip n h; simpa [copyJsonFiles]
  | cons p rest ih =>
      intro dst skip n h
      obtain ⟨k, e⟩ := p
      match e with
      | .file c =>
          by_cases hj : isJson k = true
          · rcases Bool.eq_false_or_eq_true (skip && hasKey dst k) with hk | hk
            · simpa [copyJsonFiles, hj, hk] using ih dst skip n h
            · have h2 : hasKey (setEntry dst k (.file c)) n = true := by
                by_cases hkn : k = n
                · subst hkn; simp [hasKey, lookupE_setEntry_self]
                · rw [hasKey, lookupE_setEntry_ne _ _ _ _ (Ne.symm hkn)]
                  exact h
              simpa [copyJsonFiles, hj, hk] using ih _ skip n h2
          · simpa [copyJsonFiles, hj] using ih dst skip n h
      | .dir ds => simpa [copyJsonFiles] using ih dst skip n h

/-- After a copy, every `*.json` file of the source is bound at the
destination (with skip-existing it may keep its old value). -/
theorem copy_key_present (src : List (String × Entry)) :
    ∀ dst skip n c, (n, .file c) ∈ src → isJson n = true →
    hasKey (copyJsonFiles src dst skip).1 n = true := by
  induction src with
  | nil => intro dst skip n c h; simp at h
  | cons p rest ih =>
      intro dst skip n c hmem hn
      obtain ⟨k, e⟩ := p
      rcases List.mem_cons.mp hmem with hhead | htail
      · obtain ⟨h1, h2⟩ := Prod.mk.injEq n (Entry.file c) k e ▸ hhead
        subst h1
        subst h2
        rcases Bool.eq_false_or_eq_true (skip && hasKey dst n) with hsk | hsk
        · have hd : hasKey dst n = true := by
            rcases Bool.eq_false_or_eq_true (hasKey dst n) with hd0 | hd0
            · exact hd0
            · rw [hd0, Bool.and_false] at hsk; exact Bool.noConfusion hsk
          simpa [copyJsonFiles, hn, hsk] using copy_hasKey_mono rest dst skip n hd
        · have h2 : hasKey (setEntry dst n (.file c)) n = true := by
            simp [hasKey, lookupE_setEntry_self]
          simpa [copyJsonFiles, hn, hsk] using
            copy_hasKey_mono rest (setEntry dst n (.file c)) skip n h2
      · match e with
        | .file c0 =>
            by_cases hj : isJson k = true
            · rcases Bool.eq_false_or_eq_true (skip && hasKey dst k) with hsk | hsk
              · simpa [copyJsonFiles, hj, hsk] using ih dst skip n c htail hn
              · simpa [copyJsonFiles, hj, hsk] using ih _ skip n c htail hn
            · simpa [copyJsonFiles, hj] using ih dst skip n c htail hn
        | .dir ds => simpa [copyJsonFiles] using ih dst skip n c htail hn

/-- Skip-existing is a no-op when every `*.json` file of the source already
exists at the destination. -/
theorem copy_skip_nothing (src : List (String × Entry)) :
    ∀ dst, (∀ n c, (n, Entry.file c) ∈ src → isJson n = true →
      hasKey dst n = true) →
    copyJsonFiles src dst true = (dst, 0) := by
  induction src with
  | nil => intro dst _; simp [copyJsonFiles]
  | cons p rest ih =>
      intro dst h
      obtain ⟨k, e⟩ := p
      match e with
      | .file c =>
          by_cases hj : isJson k = true
          · have hk : hasKey dst k = true := h k c (List.mem_cons_self _ _) hj
            rw [show copyJsonFiles ((k, Entry.file c) :: rest) dst true =
                copyJsonFiles rest dst true by simp [copyJsonFiles, hj, hk]]
            exact ih dst (fun n c0 hm hn => h n c0 (List.mem_cons_of_mem _ hm) hn)
          · rw [show copyJsonFiles ((k, Entry.file c) :: rest) dst true =
                copyJsonFiles rest dst true by simp [copyJsonFiles, hj]]
            exact ih dst (fun n c0 hm hn => h n c0 (List.mem_cons_of_mem _ hm) hn)
      | .dir ds =>
          rw [show copyJsonFiles ((k, Entry.dir ds) :: rest) dst true =
              copyJsonFiles rest dst true by simp [copyJsonFiles]]
          exact ih dst (fun n c0 hm hn => h n c0 (List.mem_cons_of_mem _ hm) hn)

/-- Copying does not touch names absent from the source listing. -/
theorem copy_lookup_notin (src : List (String × Entry)) :
    ∀ dst skip n, n ∉ keys src →
    lookupE (copyJsonFiles src dst skip).1 n = lookupE dst n := by
  induction src with
  | nil => intro dst skip n _; simp [copyJsonFiles]
  | cons p rest ih =>
      intro dst skip n hn
      obtain ⟨k, e⟩ := p
      have hkn : k ≠ n := fun h => hn (by simp [keys, h])
      have hrest : n ∉ keys rest := fun h => hn (by simp [keys] at h ⊢; right; exact h)
      match e with
      | .file c =>
          by_cases hj : isJson k = true
          · rcases Bool.eq_false_or_eq_true (skip && hasKey dst k) with hsk | hsk
            · simpa [copyJsonFiles, hj, hsk] using ih dst skip n hrest
            · rw [show (copyJsonFiles ((k, Entry.file c) :: rest) dst skip).1 =
                    (copyJsonFiles rest (setEntry dst k (.file c)) skip).1 by
                  simp [copyJsonFiles, hj, hsk]]
              rw [ih _ skip n hrest, lookupE_setEntry_ne _ _ _ _ (Ne.symm hkn)]
          · simpa [copyJsonFiles, hj] using ih dst skip n hrest
      | .dir ds => simpa [copyJsonFiles] using ih dst skip n hrest

/-- Without skip-existing, every `*.json` file of a duplicate-free source
ends up at the destination with the source content. -/
theorem copy_lookup_new (src : List (String × Entry)) :
    ∀ dst n c, (keys src).Nodup → (n, .file c) ∈ src → isJson n = true →
    lookupE (copyJsonFiles src dst false).1 n = some (.file c) := by
  induction src with
  | nil => intro dst n c _ h; simp at h
  | cons p rest ih =>
      intro dst n c hnd hmem hn
      obtain ⟨k, e⟩ := p
      have hnd1 : (keys rest).Nodup := (List.nodup_cons.mp hnd).2
      have hk1 : k ∉ keys rest := (List.nodup_cons.mp hnd).1
      rcases List.mem_cons.mp hmem with hhead | htail
      · obtain ⟨h1, h2⟩ := Prod.mk.injEq n (Entry.file c) k e ▸ hhead
        subst h1
        subst h2
        rw [show (copyJsonFiles ((n, Entry.file c) :: rest) dst false).1 =
              (copyJsonFiles rest (setEntry dst n (.file c)) false).1 by
            simp [copyJsonFiles, hn]]
        rw [copy_lookup_notin rest _ false n hk1, lookupE_setEntry_self]
      · have hne : k ≠ n := by
          intro h
          apply hk1
          rw [h]
          simpa [keys] using List.mem_map_of_mem Prod.fst htail
        match e with
        | .file c0 =>
            by_cases hj : isJson k = true
            · rw [show (copyJsonFiles ((k, Entry.file c0) :: rest) dst false).1 =
                    (copyJsonFiles rest (setEntry dst k (.file c0)) false).1 by
                  simp [copyJsonFiles, hj]]
              exact ih _ n c hnd1 htail hn
            · simpa [copyJsonFiles, hj] using ih dst n c hnd1 htail hn
        | .dir ds => simpa [copyJsonFiles] using ih dst n c hnd1 htail hn

/-- The entries a skip-existing copy appends: the `*.json` files of the
source whose names are absent from the destination. -/
def newJson (src dst : List (String × Entry)) : List (String × Entry) :=
  src.filter (fun p =>
    match p.2 with
    | .file _ => isJson p.1 && !hasKey dst p.1
    | .dir _ => false)

/-- A skip-existing copy from a duplicate-free source appends exactly the
new `*.json` files, in source order, and counts them. -/
theorem copy_skip_append (src : List (String × Entry)) :
    ∀ dst, (keys src).Nodup →
    copyJsonFiles src dst true = (dst ++ newJson src dst, (newJson src dst).length) := by
  induction src with
  | nil => intro dst _; simp [copyJsonFiles, newJson]
  | cons p rest ih =>
      intro dst hnd
      obtain ⟨k, e⟩ := p
      have hnd1 : (keys rest).Nodup := (List.nodup_cons.mp hnd).2
      have hk1 : k ∉ keys rest := (List.nodup_cons.mp hnd).1
      match e with
      | .file c =>
          by_cases hj : isJson k = true
          · rcases Bool.eq_false_or_eq_true (hasKey dst k) with hk | hk
            · -- already present: skipped
              have hh : newJson ((k, Entry.file c) :: rest) dst = newJson rest dst := by
                simp [newJson, List.filter_cons, hj, hk]
              rw [show copyJsonFiles ((k, Entry.file c) :: rest) dst true =
                    copyJsonFiles rest dst true by simp [copyJsonFiles, hj, hk]]
              rw [hh]
              exact ih dst hnd1
            · -- new file: appended
              have hlk : lookupE dst k = none := (hasKey_eq_false_iff dst k).mp hk
              have hset : setEntry dst k (.file c) = dst ++ [(k, .file c)] :=
                setEntry_absent dst k _ hlk
              have heq : ∀ q ∈ rest, (fun p =>
                  match p.2 with
                  | Entry.file _ => isJson p.1 && !hasKey (dst ++ [(k, Entry.file c)]) p.1
                  | Entry.dir _ => false) q = (fun p =>
                  match p.2 with
                  | Entry.file _ => isJson p.1 && !hasKey dst p.1
                  | Entry.dir _ => false) q := by
                intro q hq
                have hqk : k ≠ q.1 := by
                  intro h
                  apply hk1
                  rw [h]
                  simpa [keys] using List.mem_map_of_mem Prod.fst hq
                match q with
                | (m, .file c0) =>
                    have hkm : k ≠ m := hqk
                    simp [hasKey, lookupE_append, lookupE, hkm]
                | (m, .dir ds) => rfl
              have hnj : newJson rest (dst ++ [(k, Entry.file c)]) = newJson rest dst :=
                List.filter_congr heq
              rw [show copyJsonFiles ((k, Entry.file c) :: rest) dst true =
                    ((copyJsonFiles rest (setEntry dst k (.file c)) true).1,
                     (copyJsonFiles rest (setEntry dst k (.file c)) true).2 + 1) by
                  simp [copyJsonFiles, hj, hk]]
              rw [hset, ih _ hnd1, hnj]
              have hh : newJson ((k, Entry.file c) :: rest) dst =
                  (k, Entry.file c) :: newJson rest dst := by
                simp [newJson, List.filter_cons, hj, hk]
              rw [hh]
              simp [List.append_assoc]
          · have hh : newJson ((k, Entry.file c) :: rest) dst = newJson rest dst := by
              simp [newJson, List.filter_cons, hj]
            rw [show copyJsonFiles ((k, Entry.file c) :: rest) dst true =
                  copyJsonFiles rest dst true by simp [copyJsonFiles, hj]]
            rw [hh]
            exact ih dst hnd1
      | .dir ds =>
          have hh : newJson ((k, Entry.dir ds) :: rest) dst = newJson rest dst := by
            simp [newJson, List.filter_cons]
          rw [show copyJsonFiles ((k, Entry.dir ds) :: rest) dst true =
                copyJsonFiles rest dst true by simp [copyJsonFiles]]
          rw [hh]
          exact ih dst hnd1

/-- Copying preserves duplicate-freeness of the destination names. -/
theorem copy_preserves_nodup_keys (src : List (String × Entry)) :
    ∀ dst skip, (keys dst).Nodup →
    (keys (copyJsonFiles src dst skip).1).Nodup := by
  induction src with
  | nil => intro dst skip h; simpa [copyJsonFiles]
  | cons p rest ih =>
      intro dst skip h
      obtain ⟨k, e⟩ := p
      match e with
      | .file c =>
          by_cases hj : isJson k = true
          · rcases Bool.eq_false_or_eq_true (skip && hasKey dst k) with hsk | hsk
            · simpa [copyJsonFiles, hj, hsk] using ih dst skip h
            · have h2 : (keys (setEntry dst k (.file c))).Nodup := by
                rcases Bool.eq_false_or_eq_true (hasKey dst k) with hk | hk
                · rw [keys_setEntry_present dst k _ hk]
                  exact h
                · have hlk : lookupE dst k = none := (hasKey_eq_false_iff dst k).mp hk
                  rw [setEntry_absent dst k _ hlk]
                  have hkk : k ∉ keys dst :=
                    (lookupE_none_iff_not_mem_keys dst k).mp hlk
                  rw [show keys (dst ++ [(k, Entry.file c)]) = keys dst ++ [k] by
                    simp [keys]]
                  refine List.Nodup.append h (List.nodup_singleton k) ?_
                  intro a ha hb
                  simp at hb
                  subst hb
                  exact hkk ha
              simpa [copyJsonFiles, hj, hsk] using ih _ skip h2
          · simpa [copyJsonFiles, hj] using ih dst skip h
      | .dir ds => simpa [copyJsonFiles] using ih dst skip h

/-! ## Lemmas about the descending sort and the top-N names -/

theorem sortDesc_perm (l : List String) : List.Perm (sortDescNames l) l :=
  (List.reverse_perm _).trans (List.perm_insertionSort _ l)

theorem sortDesc_pairwise (l : List String) :
    (sortDescNames l).Pairwise (fun a b => b ≤ a) := by
  rw [sortDescNames, List.pairwise_reverse]
  exact List.sorted_insertionSort _ l

theorem sortDesc_nodup (l : List String) (h : l.Nodup) :
    (sortDescNames l).Nodup := (sortDesc_perm l).nodup_iff.mpr h

theorem sortDesc_length (l : List String) :
    (sortDescNames l).length = l.length := (sortDesc_perm l).length_eq

theorem mem_sortDesc (l : List String) (n : String) :
    n ∈ sortDescNames l ↔ n ∈ l := (sortDesc_perm l).mem_iff

/-- In a duplicate-free list, every name kept by the cut (in the first `N`
of the descending order) is strictly greater than every name beyond it. -/
theorem take_drop_dominates (l : List String) (N : Nat) (h : l.Nodup)
    (a b : String) (ha : a ∈ (sortDescNames l).take N)
    (hb : b ∈ (sortDescNames l).drop N) : b < a := by
  have hpw : ((sortDescNames l).take N ++ (sortDescNames l).drop N).Pairwise
      (fun a b => b ≤ a) := by
    rw [List.take_append_drop]
    exact sortDesc_pairwise l
  have hle : b ≤ a := (List.pairwise_append.mp hpw).2.2 a ha b hb
  have hdisj := List.disjoint_take_drop (sortDesc_nodup l h) (le_refl N)
  have hne : b ≠ a := by
    intro hba
    subst hba
    exact hdisj ha hb
  exact lt_of_le_of_ne hle hne

theorem take_not_drop (l : List String) (N : Nat) (h : l.Nodup) (a : String)
    (ha : a ∈ (sortDescNames l).take N) :
    a ∉ (sortDescNames l).drop N := fun hb =>
  lt_irrefl a (take_drop_dominates l N h a a ha hb)

theorem mem_take_or_drop (l : List String) (N : Nat) (n : String) :
    n ∈ l ↔ n ∈ (sortDescNames l).take N ∨ n ∈ (sortDescNames l).drop N := by
  rw [← mem_sortDesc l n, ← List.mem_append, List.take_append_drop]

/-! ## Lemmas about the Retention Enforcer -/

theorem jsonKeys_nodup (es : List (String × Entry))
    (h : (keys es).Nodup) : (jsonKeys es).Nodup := h.filter _

theorem retentionList_eq (es : List (String × Entry)) (N : Nat) :
    retentionList es N =
      (es.filter
         (fun p => !((sortDescNames (jsonKeys es)).drop N).contains p.1),
       ((sortDescNames (jsonKeys es)).drop N).length) := rfl

theorem doomed_isJson (es : List (String × Entry)) (N : Nat) (n : String)
    (h : n ∈ (sortDescNames (jsonKeys es)).drop N) : isJson n = true := by
  have h1 : n ∈ sortDescNames (jsonKeys es) := List.mem_of_mem_drop h
  have h2 : n ∈ jsonKeys es := (mem_sortDesc _ n).mp h1
  exact (List.mem_filter.mp h2).2

theorem jsonKeys_retention (es : List (String × Entry)) (N : Nat) :
    jsonKeys (retentionList es N).1 =
      (jsonKeys es).filter
        (fun n => !((sortDescNames (jsonKeys es)).drop N).contains n) := by
  have hfst : (retentionList es N).1 = es.filter
      (fun p => !((sortDescNames (jsonKeys es)).drop N).contains p.1) := rfl
  rw [hfst, jsonKeys,
    keys_filter_key es (fun n => !((sortDescNames (jsonKeys es)).drop N).contains n),
    jsonKeys]
  rw [List.filter_filter, List.filter_filter]
  apply List.filter_congr
  intro n _
  apply Bool.and_comm

/-- Membership among the names kept by retention is membership in the first
`N` of the descending name order. -/
theorem mem_jsonKeys_retention (es : List (String × Entry)) (N : Nat)
    (hnd : (jsonKeys es).Nodup) (n : String) :
    n ∈ jsonKeys (retentionList es N).1 ↔
      n ∈ (sortDescNames (jsonKeys es)).take N := by
  rw [jsonKeys_retention, List.mem_filter]
  constructor
  · rintro ⟨hmem, hnc⟩
    rcases (mem_take_or_drop _ N n).mp hmem with h | h
    · exact h
    · rw [Bool.not_eq_eq_eq_not, Bool.not_true, ← Bool.not_eq_true] at hnc
      exact absurd (List.elem_iff.mpr h) hnc
  · intro h
    refine ⟨(mem_take_or_drop _ N n).mpr (Or.inl h), ?_⟩
    have := take_not_drop _ N hnd n h
    simp [List.elem_iff, this]

theorem length_jsonKeys_retention (es : List (String × Entry)) (N : Nat)
    (hknd : (keys es).Nodup) :
    (jsonKeys (retentionList es N).1).length = min N (jsonKeys es).length := by
  have hnd := jsonKeys_nodup es hknd
  have h1 : (jsonKeys (retentionList es N).1).Nodup := by
    rw [jsonKeys_retention]
    exact hnd.filter _
  have h2 : ((sortDescNames (jsonKeys es)).take N).Nodup :=
    List.Nodup.sublist (List.take_sublist _ _) (sortDesc_nodup _ hnd)
  have hperm : List.Perm (jsonKeys (retentionList es N).1)
      ((sortDescNames (jsonKeys es)).take N) := by
    rw [List.perm_ext_iff_of_nodup h1 h2]
    exact mem_jsonKeys_retention es N hnd
  rw [hperm.length_eq, List.length_take, sortDesc_length]

/-- When at most `N` JSON names exist, retention removes nothing. -/
theorem retention_noop (es : List (String × Entry)) (N : Nat)
    (h : (jsonKeys es).length ≤ N) : retentionList es N = (es, 0) := by
  have hlen : (sortDescNames (jsonKeys es)).length ≤ N := by
    rw [sortDesc_length]; exact h
  have hd : (sortDescNames (jsonKeys es)).drop N = [] :=
    List.drop_eq_nil_of_le hlen
  rw [retentionList_eq, hd]
  simp

theorem retention_removed_count (es : List (String × Entry)) (N : Nat) :
    (retentionList es N).2 = (jsonKeys es).length - N := by
  rw [retentionList_eq]
  simp [List.length_drop, sortDesc_length]

theorem retention_kept_subset (es : List (String × Entry)) (N : Nat)
    (a : String) (ha : a ∈ jsonKeys (retentionList es N).1) :
    a ∈ jsonKeys es := by
  rw [jsonKeys_retention] at ha
  exact (List.mem_filter.mp ha).1

theorem retention_dominates (es : List (String × Entry)) (N : Nat)
    (hnd : (jsonKeys es).Nodup) (a : String)
    (ha : a ∈ jsonKeys (retentionList es N).1) (b : String)
    (hb : b ∈ jsonKeys es) (hbk : b ∉ jsonKeys (retentionList es N).1) :
    b < a := by
  have hat : a ∈ (sortDescNames (jsonKeys es)).take N :=
    (mem_jsonKeys_retention es N hnd a).mp ha
  have hbd : b ∈ (sortDescNames (jsonKeys es)).drop N := by
    rcases (mem_take_or_drop (jsonKeys es) N b).mp hb with h | h
    · exact absurd ((mem_jsonKeys_retention es N hnd b).mpr h) hbk
    · exact h
  exact take_drop_dominates _ N hnd a b hat hbd

/-! ## Claim theorems C1, C2, C3, C8, C10 -/

/-- C1: For every directory containing `k` JSON files and maximum `N`, the
Retention Enforcer removes 0 files when `N ≥ k` (the directory is left
unchanged); when `N < k` it removes exactly `k − N` files, and the files
remaining are exactly the `N` with lexicographically greatest filenames
(every removed JSON name is strictly less than every kept one). -/
theorem retention_enforcer_spec (es : List (String × Entry)) (N : Nat)
    (hnd : (keys es).Nodup) :
    ((jsonKeys es).length ≤ N → retentionList es N = (es, 0)) ∧
    (N < (jsonKeys es).length →
      (retentionList es N).2 = (jsonKeys es).length - N ∧
      (jsonKeys (retentionList es N).1).length = N ∧
      (∀ a ∈ jsonKeys (retentionList es N).1, a ∈ jsonKeys es) ∧
      (∀ a ∈ jsonKeys (retentionList es N).1, ∀ b ∈ jsonKeys es,
        b ∉ jsonKeys (retentionList es N).1 → b < a)) := by
  have hjnd := jsonKeys_nodup es hnd
  refine ⟨fun h => retention_noop es N h, fun h => ⟨?_, ?_, ?_, ?_⟩⟩
  · exact retention_removed_count es N
  · rw [length_jsonKeys_retention es N hnd]
    exact min_eq_left (le_of_lt h)
  · exact fun a ha => retention_kept_subset es N a ha
  · exact fun a ha b hb hbk => retention_dominates es N hjnd a ha b hb hbk

theorem retention_enforcer_spec_witness :
    (keys esW).Nodup ∧ retentionList esW 5 = (esW, 0) :=
  ⟨by decide, (retention_enforcer_spec esW 5 (by decide)).1 (by decide)⟩

/-- C2: with skip-existing disabled the File Copy Primitive copies every
JSON file of the source to the destination, overwriting any same-named
destination file (the destination ends up holding the source content);
with skip-existing enabled it never overwrites: every name bound at the
destination before the call keeps its exact content, whatever the source
holds. -/
theorem copy_primitive_spec (src dst : List (String × Entry)) :
    ((keys src).Nodup → ∀ n c, (n, Entry.file c) ∈ src → isJson n = true →
      lookupE (copyJsonFiles src dst false).1 n = some (.file c)) ∧
    (∀ n v, lookupE dst n = some v →
      lookupE (copyJsonFiles src dst true).1 n = some v) := by
  constructor
  · intro hnd n c hmem hj
    exact copy_lookup_new src dst n c hnd hmem hj
  · intro n v h
    exact copy_lookup_preserved src dst n v h

theorem copy_primitive_spec_witness :
    lookupE (copyJsonFiles srcW dstW false).1 "a.json" =
        some (Entry.file "new") ∧
      lookupE (copyJsonFiles srcW dstW true).1 "a.json" =
        some (Entry.file "old") :=
  ⟨(copy_primitive_spec srcW dstW).1 (by decide) "a.json" "new"
      (by rw [srcW]; exact List.mem_cons_self _ _) (by decide),
   (copy_primitive_spec srcW dstW).2 "a.json" (Entry.file "old") rfl⟩

/-- C3: the assemble merge step (copy the previous-pages history for a
category into `<results-dir>/history` with skip-existing enabled) is
idempotent: running it twice with the same inputs leaves the results
directory — in particular its `history/` folder — exactly as after one
run. -/
theorem merge_step_idempotent (ph res : Option Entry) (name : String) :
    (mergeOneModule ph (mergeOneModule ph res name).1 name).1 =
      (mergeOneModule ph res name).1 := by
  rcases Bool.eq_false_or_eq_true (isDirO ph) with hph | hph
  · obtain ⟨pes, rfl⟩ : ∃ pes, ph = some (.dir pes) := by
      match ph with
      | some (.dir pes) => exact ⟨pes, rfl⟩
      | some (.file c) => simp [isDirO] at hph
      | none => simp [isDirO] at hph
    have hset : ∀ (r : Option Entry) (v : Entry),
        setChildE r "history" v =
          Entry.dir (setEntry (ensureDirEs r) "history" v) := by
      intro r v
      match r with
      | none => rfl
      | some (.file c) => rfl
      | some (.dir es) => rfl
    have h1 : (mergeOneModule (some (.dir pes)) res name).1 =
        some (.dir (setEntry (ensureDirEs res) "history"
          (.dir (copyJsonFiles pes (ensureDirEs (getChild res "history"))
            true).1))) := by
      simp [mergeOneModule, isDirO, copyJsonFs, hset]
    set A := (copyJsonFiles pes (ensureDirEs (getChild res "history")) true).1
      with hA
    have h2 : getChild
        (some (Entry.dir (setEntry (ensureDirEs res) "history" (.dir A))))
        "history" = some (.dir A) := by
      simp [getChild, lookupE_setEntry_self]
    have h3 : copyJsonFiles pes A true = (A, 0) := by
      apply copy_skip_nothing
      intro n c hmem hj
      exact copy_key_present pes _ true n c hmem hj
    rw [h1]
    have h4 : (mergeOneModule (some (.dir pes))
        (some (.dir (setEntry (ensureDirEs res) "history" (.dir A)))) name).1 =
        some (setChildE
          (some (.dir (setEntry (ensureDirEs res) "history" (.dir A))))
          "history"
          (copyJsonFs (some (.dir pes))
            (getChild (some (.dir (setEntry (ensureDirEs res) "history"
              (.dir A)))) "history") true).1) := by
      simp [mergeOneModule, isDirO]
    rw [h4, h2]
    have h5 : (copyJsonFs (some (Entry.dir pes)) (some (Entry.dir A))
        true).1 = .dir A := by
      show Entry.dir (copyJsonFiles pes (ensureDirEs (some (.dir A)))
        true).1 = _
      rw [show ensureDirEs (some (Entry.dir A)) = A from rfl, h3]
    rw [h5, hset]
    show some (Entry.dir (setEntry
      (setEntry (ensureDirEs res) "history" (Entry.dir A)) "history"
      (Entry.dir A))) = _
    rw [setEntry_setEntry]
  · simp [mergeOneModule, hph]

/-- C8: calling the File Copy Primitive with an absent source directory
raises no error: it completes normally, creates the destination directory,
copies nothing into it, and returns a copied count of zero. -/
theorem copy_absent_source (dst : Option Entry) (skip : Bool) :
    copyJsonFs none dst skip = (.dir (ensureDirEs dst), 0) := rfl

/-- C10: both primitives touch only `*.json` names: a source file whose
name does not match `*.json` is never copied (the destination binding of
any non-JSON name is unchanged by the copy), and the Retention Enforcer
never deletes a file whose name does not match `*.json`, whatever the
maximum. -/
theorem nonjson_untouched (src es : List (String × Entry)) (skip : Bool)
    (N : Nat) (n : String) (h : isJson n = false) :
    (∀ dst, lookupE (copyJsonFiles src dst skip).1 n = lookupE dst n) ∧
    lookupE (retentionList es N).1 n = lookupE es n := by
  constructor
  · intro dst
    exact copy_nonjson_frame src dst skip n h
  · have hfst : (retentionList es N).1 = es.filter
        (fun p => !((sortDescNames (jsonKeys es)).drop N).contains p.1) := rfl
    rw [hfst]
    apply lookupE_filter_of_all
    intro e
    have hnm : n ∉ (sortDescNames (jsonKeys es)).drop N := by
      intro hmem
      rw [doomed_isJson es N n hmem] at h
      exact Bool.noConfusion h
    simp [List.elem_iff, hnm]

theorem nonjson_untouched_witness :
    lookupE (copyJsonFiles srcW esW false).1 "notes.txt" =
        some (Entry.file "n") ∧
      lookupE (retentionList esW 1).1 "notes.txt" = some (Entry.file "n") := by
  have h := nonjson_untouched srcW esW false 1 "notes.txt" (by decide)
  exact ⟨by rw [h.1 esW]; rfl, by rw [h.2]; rfl⟩

/-! ## Claim theorems C6 and C7 -/

/-- C6: `assemble` with neither `--micro-results` nor `--integration-results`
returns the usage error (the error branch is taken before any filesystem
write); with at least one of the two supplied the command always completes
with a normal result — absent snapshots, absent results directories and
absent badge files never make it fail. -/
theorem assemble_usage_error (a : AssembleIn) (st : FsState) :
    (truthy a.microResults = false → truthy a.integrationResults = false →
      assemble a st = .error
        "Error: at least one of --micro-results or --integration-results is required") ∧
    ((truthy a.microResults = true ∨ truthy a.integrationResults = true) →
      ∃ r, assemble a st = .ok r) := by
  constructor
  · intro hm hi
    simp [assemble, hm, hi]
  · intro h
    have hcond : (!truthy a.microResults && !truthy a.integrationResults)
        = false := by
      rcases h with h | h <;> simp [h]
    simp only [assemble, hcond, Bool.false_eq_true, if_false]
    exact ⟨_, rfl⟩

theorem assemble_usage_error_witness :
    assemble ⟨none, none, none, "gh-pages", "sha", 10, "ts"⟩
      ⟨none, none, none, none⟩ = .error
      "Error: at least one of --micro-results or --integration-results is required" :=
  (assemble_usage_error ⟨none, none, none, "gh-pages", "sha", 10, "ts"⟩
    ⟨none, none, none, none⟩).1 rfl rfl

/-- C7: when the `--previous-pages-dir` path is not a directory,
`prepare-history` copies nothing (the output tree is returned untouched),
prints exactly one informational message, that message contains the given
path, and the command completes normally. -/
theorem prepare_history_absent (prevPath : String) (prev output : Option Entry)
    (h : isDirO prev = false) :
    prepare_history prevPath prev output = (output, [noPrevMsg prevPath]) ∧
    ∃ pre post, noPrevMsg prevPath = pre ++ prevPath ++ post := by
  constructor
  · simp [prepare_history, h]
  · exact ⟨"No previous pages directory found at ",
      ", skipping history preparation", rfl⟩

theorem prepare_history_absent_witness :
    prepare_history "previous-pages/benchmarks" none (some (.dir [])) =
      (some (.dir []), [noPrevMsg "previous-pages/benchmarks"]) :=
  (prepare_history_absent "previous-pages/benchmarks" none
    (some (.dir [])) rfl).1

/-! ## Distinguishing the printed messages -/

theorem getElem_data_append_left (s t : String) (i : Nat) (c : Char)
    (h : s.data.get? i = some c) : (s ++ t).data.get? i = some c := by
  have hlen : i < s.data.length := by
    by_contra hge
    rw [List.get?_eq_none.mpr (le_of_not_lt hge)] at h
    exact Option.noConfusion h
  rw [String.data_append, List.get?_append hlen]
  exact h

theorem ne_of_data_get (s t : String) (i : Nat) (a b : Char)
    (hs : s.data.get? i = some a) (ht : t.data.get? i = some b)
    (hab : a ≠ b) : s ≠ t := by
  intro h
  subst h
  rw [hs] at ht
  exact hab (Option.some.inj ht)

theorem warnMsg_head (n p : String) :
    (warnMsg n p).data.get? 0 = some 'W' := by
  apply getElem_data_append_left
  apply getElem_data_append_left
  apply getElem_data_append_left
  apply getElem_data_append_left
  decide

theorem mergedMsg_head (c : Nat) (n : String) :
    (mergedMsg c n).data.get? 0 = some 'M' := by
  apply getElem_data_append_left
  apply getElem_data_append_left
  apply getElem_data_append_left
  apply getElem_data_append_left
  decide

theorem removedMsg_head (c : Nat) (n : String) (m : Nat) :
    (removedMsg c n m).data.get? 0 = some 'R' := by
  apply getElem_data_append_left
  apply getElem_data_append_left
  apply getElem_data_append_left
  apply getElem_data_append_left
  apply getElem_data_append_left
  apply getElem_data_append_left
  decide

theorem copiedMsg_head (n d : String) :
    (copiedMsg n d).data.get? 0 = some 'C' := by
  apply getElem_data_append_left
  apply getElem_data_append_left
  apply getElem_data_append_left
  apply getElem_data_append_left
  apply getElem_data_append_left
  decide

theorem warnMsg_micro_nine (p : String) :
    (warnMsg "micro" p).data.get? 9 = some 'm' := by
  apply getElem_data_append_left
  apply getElem_data_append_left
  apply getElem_data_append_left
  decide

theorem warnMsg_integration_nine (p : String) :
    (warnMsg "integration" p).data.get? 9 = some 'i' := by
  apply getElem_data_append_left
  apply getElem_data_append_left
  apply getElem_data_append_left
  decide

theorem setChildE_eq (r : Option Entry) (n : String) (v : Entry) :
    setChildE r n v = .dir (setEntry (ensureDirEs r) n v) := by
  match r with
  | none => rfl
  | some (.file c) => rfl
  | some (.dir es) => rfl

theorem mergeOneModule_of_dir (ph res : Option Entry) (name : String)
    (h : isDirO ph = true) :
    mergeOneModule ph res name =
      (some (.dir (setEntry (ensureDirEs res) "history"
        (copyJsonFs ph (getChild res "history") true).1)),
       [mergedMsg (copyJsonFs ph (getChild res "history") true).2 name]) := by
  rw [mergeOneModule, if_pos h]
  simp only [setChildE_eq]

theorem retentionOneModule_of_dir (res : Option Entry) (N : Nat)
    (name : String) (es : List (String × Entry))
    (h : getChild res "history" = some (.dir es)) :
    (retentionOneModule res N name).1 =
      some (.dir (setEntry (ensureDirEs res) "history"
        (.dir (retentionList es N).1))) := by
  rw [retentionOneModule]
  rw [h]
  simp [setChildE_eq]

theorem mergeOneModule_snd (ph res : Option Entry) (name : String) :
    (mergeOneModule ph res name).2 = [] ∨
      ∃ c, (mergeOneModule ph res name).2 = [mergedMsg c name] := by
  rcases Bool.eq_false_or_eq_true (isDirO ph) with h | h
  · right
    exact ⟨_, by rw [mergeOneModule, if_pos h]⟩
  · left
    rw [mergeOneModule, if_neg (by rw [h]; exact Bool.noConfusion)]

theorem retentionOneModule_snd (res : Option Entry) (N : Nat)
    (name : String) :
    (retentionOneModule res N name).2 = [] ∨
      ∃ c, (retentionOneModule res N name).2 = [removedMsg c name N] := by
  rw [retentionOneModule]
  match h : getChild res "history" with
  | some (.dir es) =>
      by_cases hz : (retentionList es N).2 = 0
      · left; simp [hz]
      · right; exact ⟨(retentionList es N).2, by simp [hz]⟩
  | some (.file c) => left; rfl
  | none => left; rfl

theorem combineOneModule_snd (res : Option Entry) (name path outD : String)
    (es : List (String × Entry)) :
    (combineOneModule res name path outD es).2 = [copiedMsg name outD] ∨
      (combineOneModule res name path outD es).2 = [warnMsg name path] := by
  match res with
  | some (.dir rs) => left; rfl
  | some (.file c) => right; rfl
  | none => right; rfl

theorem combineOneModule_of_dir_snd (rs : List (String × Entry))
    (name path outD : String) (es : List (String × Entry)) :
    (combineOneModule (some (.dir rs)) name path outD es).2 =
      [copiedMsg name outD] := rfl

/-- The combine-phase warning for a category differs from every other
message the script can print: merged, removed and copied messages start
with a different character, and the other category's warning differs at
the category name. -/
theorem warn_micro_ne_merged (p : String) (c : Nat) (n : String) :
    mergedMsg c n ≠ warnMsg "micro" p :=
  ne_of_data_get _ _ 0 'M' 'W' (mergedMsg_head c n) (warnMsg_head _ p)
    (by decide)

theorem warn_micro_ne_removed (p : String) (c : Nat) (n : String) (m : Nat) :
    removedMsg c n m ≠ warnMsg "micro" p :=
  ne_of_data_get _ _ 0 'R' 'W' (removedMsg_head c n m) (warnMsg_head _ p)
    (by decide)

theorem warn_micro_ne_copied (p : String) (n d : String) :
    copiedMsg n d ≠ warnMsg "micro" p :=
  ne_of_data_get _ _ 0 'C' 'W' (copiedMsg_head n d) (warnMsg_head _ p)
    (by decide)

theorem warn_integration_ne_warn_micro (p q : String) :
    warnMsg "integration" q ≠ warnMsg "micro" p :=
  ne_of_data_get _ _ 9 'i' 'm' (warnMsg_integration_nine q)
    (warnMsg_micro_nine p) (by decide)

theorem warn_micro_notin_merge (ph res : Option Entry) (name p : String) :
    warnMsg "micro" p ∉ (mergeOneModule ph res name).2 := by
  rcases mergeOneModule_snd ph res name with h | ⟨c, h⟩ <;> rw [h]
  · exact List.not_mem_nil _
  · intro hmem
    rw [List.mem_singleton] at hmem
    exact warn_micro_ne_merged p c name hmem.symm

theorem warn_micro_notin_retention (res : Option Entry) (N : Nat)
    (name p : String) :
    warnMsg "micro" p ∉ (retentionOneModule res N name).2 := by
  rcases retentionOneModule_snd res N name with h | ⟨c, h⟩ <;> rw [h]
  · exact List.not_mem_nil _
  · intro hmem
    rw [List.mem_singleton] at hmem
    exact warn_micro_ne_removed p c name N hmem.symm

theorem warn_micro_notin_combine_integration (res : Option Entry)
    (path outD : String) (es : List (String × Entry)) (p : String) :
    warnMsg "micro" p ∉ (combineOneModule res "integration" path outD es).2 := by
  rcases combineOneModule_snd res "integration" path outD es with h | h <;>
    rw [h]
  · intro hmem
    rw [List.mem_singleton] at hmem
    exact warn_micro_ne_copied p "integration" outD hmem.symm
  · intro hmem
    rw [List.mem_singleton] at hmem
    exact warn_integration_ne_warn_micro p path hmem.symm

theorem copyJsonFs_fst (src dst : Option Entry) (skip : Bool) :
    ∃ es, (copyJsonFs src dst skip).1 = Entry.dir es := ⟨_, rfl⟩

/-- C9: the File Copy Primitive always creates its destination directory
(also with an absent or JSON-less source and zero files copied); hence in
`assemble`, a configured category whose previous-pages history exists gets
its results directory (with `history/`) created by the merge phase even if
it did not exist before, the final state holds a directory there, and the
combine phase's results-not-found warning for that category is never
printed. -/
theorem copy_creates_destination (a : AssembleIn) (st : FsState)
    (hm : truthy a.microResults = true)
    (hp : truthy a.previousPagesDir = true)
    (hpd : isDirO st.prev = true)
    (hh : isDirO (getChild (getChild st.prev "micro") "history") = true) :
    (∀ src dst skip, ∃ es, (copyJsonFs src dst skip).1 = Entry.dir es) ∧
    isDirO (assembleRun a st).1.micro = true ∧
    warnMsg "micro" (a.microResults.getD "") ∉ (assembleRun a st).2 ∧
    assemble a st = .ok (assembleRun a st) := by
  have hco : (truthy a.microResults &&
      (truthy a.previousPagesDir && isDirO st.prev)) = true := by
    rw [hm, hp, hpd]
    rfl
  obtain ⟨CA, hCA⟩ := copyJsonFs_fst
    (getChild (getChild st.prev "micro") "history")
    (getChild st.micro "history") true
  have h1 : (mergeOneModule (getChild (getChild st.prev "micro") "history")
      st.micro "micro").1 =
      some (.dir (setEntry (ensureDirEs st.micro) "history" (.dir CA))) := by
    rw [mergeOneModule_of_dir _ _ _ hh]
    rw [← hCA]
  have h2 : getChild ((mergeOneModule
      (getChild (getChild st.prev "micro") "history") st.micro "micro").1)
      "history" = some (.dir CA) := by
    rw [h1]
    simp [getChild, lookupE_setEntry_self]
  have h3 : (retentionOneModule (mergeOneModule
      (getChild (getChild st.prev "micro") "history") st.micro "micro").1
      a.maxHistory "micro").1 =
      some (.dir (setEntry (ensureDirEs (mergeOneModule
        (getChild (getChild st.prev "micro") "history") st.micro
        "micro").1) "history" (.dir (retentionList CA a.maxHistory).1))) :=
    retentionOneModule_of_dir _ _ _ _ h2
  refine ⟨fun src dst skip => ⟨_, rfl⟩, ?_, ?_, ?_⟩
  · simp only [assembleRun, hm, hp, hpd, Bool.true_and, Bool.and_true,
      eq_self_iff_true, if_true]
    rw [h3]
    rfl
  · simp only [assembleRun, hm, hp, hpd, Bool.true_and, Bool.and_true,
      eq_self_iff_true, if_true]
    simp only [List.mem_append, not_or]
    refine ⟨⟨⟨⟨⟨?_, ?_⟩, ?_⟩, ?_⟩, ?_⟩, ?_⟩
    · exact warn_micro_notin_merge _ _ _ _
    · rcases Bool.eq_false_or_eq_true (truthy a.integrationResults)
        with hcI | hcI
      · rw [hcI]
        simp only [eq_self_iff_true, if_true]
        exact warn_micro_notin_merge _ _ _ _
      · rw [hcI]
        simp
    · exact warn_micro_notin_retention _ _ _ _
    · rcases Bool.eq_false_or_eq_true (truthy a.integrationResults)
        with hcI | hcI
      · rw [hcI]
        simp only [eq_self_iff_true, if_true]
        exact warn_micro_notin_retention _ _ _ _
      · rw [hcI]
        simp
    · rw [h3]
      rw [combineOneModule_of_dir_snd]
      intro hmem
      rw [List.mem_singleton] at hmem
      exact warn_micro_ne_copied _ "micro" a.outputDir hmem.symm
    · rcases Bool.eq_false_or_eq_true (truthy a.integrationResults)
        with hcI | hcI
      · rw [hcI]
        simp only [eq_self_iff_true, if_true]
        exact warn_micro_notin_combine_integration _ _ _ _ _
      · rw [hcI]
        simp
  · simp [assemble, hm]

theorem copy_creates_destination_witness :
    isDirO (assembleRun aW stW).1.micro = true ∧
      warnMsg "micro" (aW.microResults.getD "") ∉ (assembleRun aW stW).2 :=
  ⟨(copy_creates_destination aW stW (by decide) (by decide) rfl rfl).2.1,
   (copy_creates_destination aW stW (by decide) (by decide) rfl rfl).2.2.1⟩

/-! ## Badge promotion (C5) -/

theorem mergeOneModule_badges (ph : Option Entry)
    (rs : List (String × Entry)) (name : String) :
    ∃ rs2, (mergeOneModule ph (some (.dir rs)) name).1 = some (.dir rs2) ∧
      lookupE rs2 "badges" = lookupE rs "badges" := by
  rcases Bool.eq_false_or_eq_true (isDirO ph) with h | h
  · refine ⟨_, by rw [mergeOneModule_of_dir _ _ _ h], ?_⟩
    exact lookupE_setEntry_ne _ _ _ _ (by decide)
  · refine ⟨rs, ?_, rfl⟩
    rw [mergeOneModule, if_neg (by rw [h]; exact Bool.noConfusion)]

theorem retentionOneModule_badges (rs : List (String × Entry)) (N : Nat)
    (name : String) :
    ∃ rs2, (retentionOneModule (some (.dir rs)) N name).1 = some (.dir rs2) ∧
      lookupE rs2 "badges" = lookupE rs "badges" := by
  match h : getChild (some (Entry.dir rs)) "history" with
  | some (.dir es) =>
      refine ⟨setEntry rs "history" (.dir (retentionList es N).1), ?_, ?_⟩
      · rw [retentionOneModule, h]
        simp only [setChildE_eq]
        rfl
      · exact lookupE_setEntry_ne _ _ _ _ (by decide)
  | some (.file c) =>
      refine ⟨rs, ?_, rfl⟩
      rw [retentionOneModule, h]
  | none =>
      refine ⟨rs, ?_, rfl⟩
      rw [retentionOneModule, h]

theorem copyBadge_skip (b : List (String × Entry)) (mb : Option Entry)
    (srcN dstN : String) (h : getChild mb srcN = none) :
    copyBadge b mb srcN dstN = b := by
  simp [copyBadge, h]

theorem copyBadge_lookup_ne (b : List (String × Entry)) (mb : Option Entry)
    (srcN dstN n : String) (hne : n ≠ dstN) :
    lookupE (copyBadge b mb srcN dstN) n = lookupE b n := by
  rw [copyBadge]
  match h : getChild mb srcN with
  | some (.file c) => exact lookupE_setEntry_ne _ _ _ _ hne
  | some (.dir ds) => rfl
  | none => rfl

theorem copyBadge_lookup_self (b : List (String × Entry)) (mb : Option Entry)
    (srcN dstN : String) (c : String)
    (h : getChild mb srcN = some (.file c)) :
    lookupE (copyBadge b mb srcN dstN) dstN = some (.file c) := by
  simp [copyBadge, h, lookupE_setEntry_self]

theorem combineOneModule_of_badges (rs2 : List (String × Entry))
    (bs : List (String × Entry)) (name path outD : String)
    (es : List (String × Entry)) (h : lookupE rs2 "badges" = some (.dir bs)) :
    (combineOneModule (some (.dir rs2)) name path outD es).1 =
      setEntry (setEntry es name (copytree (.dir rs2) (lookupE es name)))
        "badges"
        (.dir ((badgeMapping name).foldl
          (fun b pr => copyBadge b (some (.dir bs)) pr.1 pr.2)
          (match lookupE (setEntry es name
              (copytree (.dir rs2) (lookupE es name))) "badges" with
           | some (.dir bs0) => bs0
           | _ => []))) := by
  simp only [combineOneModule, h]

theorem badgeMapping_integration : badgeMapping "integration" =
    [("integration-performance-badge.json",
      "integration-performance-badge.json"),
     ("integration-trend-badge.json", "integration-trend-badge.json"),
     ("last-run-badge.json", "integration-last-run-badge.json")] := by decide

theorem badgeMapping_micro : badgeMapping "micro" =
    [("performance-badge.json", "performance-badge.json"),
     ("trend-badge.json", "trend-badge.json"),
     ("last-run-badge.json", "last-run-badge.json")] := by decide

/-! ## Idempotence of `copytree` (towards C4) -/

mutual
/-- Mutual induction principle for entries and entry listings. -/
def entryInd (P : Entry → Prop) (Q : List (String × Entry) → Prop)
    (hf : ∀ c, P (.file c))
    (hd : ∀ es, Q es → P (.dir es))
    (hn : Q [])
    (hc : ∀ n e rest, P e → Q rest → Q ((n, e) :: rest)) :
    ∀ e, P e
  | .file c => hf c
  | .dir es => hd es (entryIndList P Q hf hd hn hc es)

def entryIndList (P : Entry → Prop) (Q : List (String × Entry) → Prop)
    (hf : ∀ c, P (.file c))
    (hd : ∀ es, Q es → P (.dir es))
    (hn : Q [])
    (hc : ∀ n e rest, P e → Q rest → Q ((n, e) :: rest)) :
    ∀ es, Q es
  | [] => hn
  | (n, e) :: rest =>
      hc n e rest (entryInd P Q hf hd hn hc e)
        (entryIndList P Q hf hd hn hc rest)
end

theorem copyInto_lookup_notin (es : List (String × Entry)) :
    ∀ ds n, n ∉ keys es → lookupE (copyInto es ds) n = lookupE ds n := by
  induction es with
  | nil => intro ds n _; rw [copyInto]
  | cons p rest ih =>
      intro ds n hn
      obtain ⟨k, e⟩ := p
      have hkn : k ≠ n := fun h => hn (by simp [keys, h])
      have hrest : n ∉ keys rest := fun h =>
        hn (by simp [keys] at h ⊢; right; exact h)
      rw [copyInto, ih _ n hrest, lookupE_setEntry_ne _ _ _ _ (Ne.symm hkn)]

theorem copyInto_lookup_mem (es : List (String × Entry)) :
    ∀ ds n e, (keys es).Nodup → (n, e) ∈ es →
    lookupE (copyInto es ds) n = some (copytree e (lookupE ds n)) := by
  induction es with
  | nil => intro ds n e _ h; simp at h
  | cons p rest ih =>
      intro ds n e hnd hmem
      obtain ⟨k, e0⟩ := p
      have hnd1 : (keys rest).Nodup := (List.nodup_cons.mp hnd).2
      have hk1 : k ∉ keys rest := (List.nodup_cons.mp hnd).1
      rcases List.mem_cons.mp hmem with hhead | htail
      · obtain ⟨h1, h2⟩ := Prod.mk.injEq n e k e0 ▸ hhead
        subst h1
        subst h2
        rw [copyInto, copyInto_lookup_notin rest _ n hk1,
          lookupE_setEntry_self]
      · have hne : k ≠ n := by
          intro h
          apply hk1
          rw [h]
          simpa [keys] using List.mem_map_of_mem Prod.fst htail
        rw [copyInto, ih _ n e hnd1 htail,
          lookupE_setEntry_ne _ _ _ _ (Ne.symm hne)]

theorem copytree_file_eq (c : String) (d : Option Entry) :
    copytree (.file c) d = .file c := rfl

theorem copytree_dir_eq (es : List (String × Entry)) (d : Option Entry) :
    copytree (.dir es) d =
      .dir (copyInto es (match d with
        | some (.dir ds) => ds
        | _ => [])) := by
  match d with
  | some (.dir ds) => rfl
  | some (.file c) => rfl
  | none => rfl

theorem copyInto_cons_eq (n : String) (e : Entry)
    (rest ds : List (String × Entry)) :
    copyInto ((n, e) :: rest) ds =
      copyInto rest (setEntry ds n (copytree e (lookupE ds n))) := rfl

theorem copytree_copyInto_idem :
    (∀ e, Entry.wfE e = true → ∀ d, copytree e (some (copytree e d)) =
      copytree e d) ∧
    (∀ es, wfList es = true → ∀ ds, (keys es).Nodup →
      copyInto es (copyInto es ds) = copyInto es ds) := by
  have hf : ∀ c, Entry.wfE (.file c) = true → ∀ d,
      copytree (.file c) (some (copytree (.file c) d)) =
        copytree (.file c) d := by
    intro c _ d
    rfl
  have hd : ∀ es, (wfList es = true → ∀ ds, (keys es).Nodup →
      copyInto es (copyInto es ds) = copyInto es ds) →
      (Entry.wfE (.dir es) = true → ∀ d,
        copytree (.dir es) (some (copytree (.dir es) d)) =
          copytree (.dir es) d) := by
    intro es hQ hwf d
    have hnd : (keys es).Nodup := by
      rw [Entry.wfE] at hwf
      exact (nodupKeys_iff _).mp (Bool.and_eq_true_iff.mp hwf).1
    have hwl : wfList es = true := by
      rw [Entry.wfE] at hwf
      exact (Bool.and_eq_true_iff.mp hwf).2
    rw [copytree_dir_eq es d, copytree_dir_eq]
    show Entry.dir (copyInto es (copyInto es (match d with
      | some (Entry.dir ds) => ds
      | _ => []))) = Entry.dir (copyInto es (match d with
      | some (Entry.dir ds) => ds
      | _ => []))
    rw [hQ hwl _ hnd]
  have hn : wfList [] = true → ∀ ds, (keys ([] : List (String × Entry))).Nodup →
      copyInto [] (copyInto [] ds) = copyInto [] ds := by
    intro _ ds _
    rfl
  have hc : ∀ n e rest,
      (Entry.wfE e = true → ∀ d, copytree e (some (copytree e d)) =
        copytree e d) →
      (wfList rest = true → ∀ ds, (keys rest).Nodup →
        copyInto rest (copyInto rest ds) = copyInto rest ds) →
      (wfList ((n, e) :: rest) = true → ∀ ds,
        (keys ((n, e) :: rest)).Nodup →
        copyInto ((n, e) :: rest) (copyInto ((n, e) :: rest) ds) =
          copyInto ((n, e) :: rest) ds) := by
    intro n e rest hP hQ hwf ds hnd
    have hwe : Entry.wfE e = true := by
      rw [wfList] at hwf
      exact (Bool.and_eq_true_iff.mp hwf).1
    have hwr : wfList rest = true := by
      rw [wfList] at hwf
      exact (Bool.and_eq_true_iff.mp hwf).2
    have hnd1 : (keys rest).Nodup := (List.nodup_cons.mp hnd).2
    have hk1 : n ∉ keys rest := (List.nodup_cons.mp hnd).1
    rw [copyInto_cons_eq n e rest ds]
    rw [show copyInto ((n, e) :: rest)
        (copyInto rest (setEntry ds n (copytree e (lookupE ds n)))) =
      copyInto rest (setEntry
        (copyInto rest (setEntry ds n (copytree e (lookupE ds n)))) n
        (copytree e (lookupE (copyInto rest
          (setEntry ds n (copytree e (lookupE ds n)))) n))) from rfl]
    have hlk : lookupE (copyInto rest
        (setEntry ds n (copytree e (lookupE ds n)))) n =
        some (copytree e (lookupE ds n)) := by
      rw [copyInto_lookup_notin rest _ n hk1, lookupE_setEntry_self]
    rw [hlk, hP hwe, setEntry_self _ _ _ hlk, hQ hwr _ hnd1]
  exact ⟨entryInd _ _ hf hd hn hc, entryIndList _ _ hf hd hn hc⟩

theorem copytree_idem (e : Entry) (hwf : Entry.wfE e = true)
    (d : Option Entry) :
    copytree e (some (copytree e d)) = copytree e d :=
  copytree_copyInto_idem.1 e hwf d

/-! ## Preservation of well-formedness -/

theorem wfE_dir_iff (es : List (String × Entry)) :
    Entry.wfE (.dir es) = true ↔
      (keys es).Nodup ∧ wfList es = true := by
  rw [Entry.wfE, Bool.and_eq_true_iff, nodupKeys_iff]

theorem wfList_cons_iff (p : String × Entry) (rest : List (String × Entry)) :
    wfList (p :: rest) = true ↔
      Entry.wfE p.2 = true ∧ wfList rest = true := by
  obtain ⟨n, e⟩ := p
  rw [wfList, Bool.and_eq_true_iff]

theorem setEntry_wfList (es : List (String × Entry)) (n : String) (v : Entry)
    (h : wfList es = true) (hv : Entry.wfE v = true) :
    wfList (setEntry es n v) = true := by
  induction es with
  | nil => simp [setEntry, wfList, hv]
  | cons p rest ih =>
      obtain ⟨m, e0⟩ := p
      rw [wfList_cons_iff] at h
      by_cases hm : m = n
      · rw [setEntry, if_pos hm, wfList_cons_iff]
        exact ⟨hv, h.2⟩
      · rw [setEntry, if_neg hm, wfList_cons_iff]
        exact ⟨h.1, ih h.2⟩

theorem setEntry_keys_nodup (es : List (String × Entry)) (n : String)
    (v : Entry) (h : (keys es).Nodup) :
    (keys (setEntry es n v)).Nodup := by
  rcases h0 : lookupE es n with _ | e
  · rw [setEntry_absent es n v h0]
    rw [show keys (es ++ [(n, v)]) = keys es ++ [n] by simp [keys]]
    refine List.Nodup.append h (List.nodup_singleton n) ?_
    intro a ha hb
    simp at hb
    exact (lookupE_none_iff_not_mem_keys es n).mp h0 (hb ▸ ha)
  · rw [keys_setEntry_present es n v (by rw [h0]; rfl)]
    exact h

theorem setEntry_wfE_dir (es : List (String × Entry)) (n : String) (v : Entry)
    (h : Entry.wfE (.dir es) = true) (hv : Entry.wfE v = true) :
    Entry.wfE (.dir (setEntry es n v)) = true := by
  rw [wfE_dir_iff] at h ⊢
  exact ⟨setEntry_keys_nodup es n v h.1, setEntry_wfList es n v h.2 hv⟩

theorem copy_preserves_wfList (src : List (String × Entry)) :
    ∀ dst skip, wfList dst = true →
    wfList (copyJsonFiles src dst skip).1 = true := by
  induction src with
  | nil => intro dst skip h; simpa [copyJsonFiles]
  | cons p rest ih =>
      intro dst skip h
      obtain ⟨k, e⟩ := p
      match e with
      | .file c =>
          by_cases hj : isJson k = true
          · rcases Bool.eq_false_or_eq_true (skip && hasKey dst k) with hsk | hsk
            · simpa [copyJsonFiles, hj, hsk] using ih dst skip h
            · have h2 : wfList (setEntry dst k (.file c)) = true :=
                setEntry_wfList dst k _ h rfl
              simpa [copyJsonFiles, hj, hsk] using ih _ skip h2
          · simpa [copyJsonFiles, hj] using ih dst skip h
      | .dir ds => simpa [copyJsonFiles] using ih dst skip h

theorem filter_preserves_wfList (es : List (String × Entry))
    (p : String × Entry → Bool) (h : wfList es = true) :
    wfList (es.filter p) = true := by
  induction es with
  | nil => simpa
  | cons q rest ih =>
      rw [wfList_cons_iff] at h
      by_cases hp : p q = true
      · rw [List.filter_cons, if_pos hp, wfList_cons_iff]
        exact ⟨h.1, ih h.2⟩
      · rw [List.filter_cons, if_neg hp]
        exact ih h.2

theorem filter_keys_nodup (es : List (String × Entry))
    (p : String × Entry → Bool) (h : (keys es).Nodup) :
    (keys (es.filter p)).Nodup := by
  induction es with
  | nil => simpa
  | cons q rest ih =>
      obtain ⟨m, e0⟩ := q
      have h1 : m ∉ keys rest := (List.nodup_cons.mp h).1
      have h2 : (keys rest).Nodup := (List.nodup_cons.mp h).2
      by_cases hp : p (m, e0) = true
      · rw [List.filter_cons, if_pos hp]
        rw [show keys ((m, e0) :: List.filter p rest) =
          m :: keys (List.filter p rest) from rfl]
        refine List.nodup_cons.mpr ⟨?_, ih h2⟩
        intro hmem
        apply h1
        rw [keys] at hmem ⊢
        obtain ⟨q, hq1, hq2⟩ := List.mem_map.mp hmem
        exact hq2 ▸ List.mem_map_of_mem Prod.fst (List.mem_of_mem_filter hq1)
      · rw [List.filter_cons, if_neg hp]
        exact ih h2

/-! ## Re-merging pruned entries and pruning again restores the directory -/

theorem topN_unique (l : List String) (N : Nat) (hnd : l.Nodup)
    (X : List String) (hXnd : X.Nodup) (hXsub : ∀ x ∈ X, x ∈ l)
    (hXlen : X.length = min N l.length)
    (hdom : ∀ x ∈ X, ∀ b ∈ l, b ∉ X → b < x) :
    ∀ n, n ∈ (sortDescNames l).take N ↔ n ∈ X := by
  have hTnd : ((sortDescNames l).take N).Nodup :=
    List.Nodup.sublist (List.take_sublist _ _) (sortDesc_nodup _ hnd)
  have hTsub : ∀ t ∈ (sortDescNames l).take N, t ∈ l := fun t ht =>
    (mem_take_or_drop l N t).mpr (Or.inl ht)
  have hTlen : ((sortDescNames l).take N).length = min N l.length := by
    rw [List.length_take, sortDesc_length]
  have hTX : ∀ t ∈ (sortDescNames l).take N, t ∈ X := by
    by_contra hcon
    push_neg at hcon
    obtain ⟨t, ht, htX⟩ := hcon
    have hXT : ∀ x ∈ X, x ∈ (sortDescNames l).take N := by
      intro x hx
      by_contra hxT
      have hxd : x ∈ (sortDescNames l).drop N := by
        rcases (mem_take_or_drop l N x).mp (hXsub x hx) with h | h
        · exact absurd h hxT
        · exact h
      have h1 : t < x := hdom x hx t (hTsub t ht) htX
      have h2 : x < t := take_drop_dominates l N hnd t x ht hxd
      exact lt_asymm h1 h2
    have hsp : X.Subperm ((sortDescNames l).take N) :=
      List.subperm_of_subset hXnd hXT
    have hperm : List.Perm X ((sortDescNames l).take N) :=
      hsp.perm_of_length_le (by rw [hXlen, hTlen])
    exact htX (hperm.mem_iff.mpr ht)
  have hsp : ((sortDescNames l).take N).Subperm X :=
    List.subperm_of_subset hTnd hTX
  have hperm : List.Perm ((sortDescNames l).take N) X :=
    hsp.perm_of_length_le (by rw [hXlen, hTlen])
  exact fun n => hperm.mem_iff

theorem jsonKeys_append (xs ys : List (String × Entry)) :
    jsonKeys (xs ++ ys) = jsonKeys xs ++ jsonKeys ys := by
  simp [jsonKeys, keys, List.filter_append]

theorem jsonKeys_sub_keys (es : List (String × Entry)) (n : String)
    (h : n ∈ jsonKeys es) : n ∈ keys es := (List.mem_filter.mp h).1

theorem mem_jsonKeys_iff (es : List (String × Entry)) (n : String) :
    n ∈ jsonKeys es ↔ n ∈ keys es ∧ isJson n = true := by
  rw [jsonKeys, List.mem_filter]

theorem retention_keys_sub (A : List (String × Entry)) (N : Nat) (n : String)
    (h : n ∈ keys (retentionList A N).1) : n ∈ keys A := by
  have hfst : (retentionList A N).1 = A.filter
      (fun p => !((sortDescNames (jsonKeys A)).drop N).contains p.1) := rfl
  rw [hfst, keys_filter_key A
    (fun m => !((sortDescNames (jsonKeys A)).drop N).contains m)] at h
  exact List.mem_of_mem_filter h

theorem retention_restore (A extras : List (String × Entry)) (N : Nat)
    (hknd : (keys A).Nodup)
    (hextnd : (keys extras).Nodup)
    (hjson : ∀ p ∈ extras, isJson p.1 = true)
    (hsub : ∀ p ∈ extras, p.1 ∈ jsonKeys A)
    (hnot : ∀ p ∈ extras, ¬ p.1 ∈ keys (retentionList A N).1) :
    (retentionList ((retentionList A N).1 ++ extras) N).1 =
      (retentionList A N).1 := by
  have hKnd : (jsonKeys A).Nodup := jsonKeys_nodup A hknd
  by_cases hlen : (jsonKeys A).length ≤ N
  · have hempty : extras = [] := by
      rcases extras with _ | ⟨p, rest⟩
      · rfl
      · exfalso
        apply hnot p (List.mem_cons_self _ _)
        rw [retention_noop A N hlen]
        exact jsonKeys_sub_keys A p.1 (hsub p (List.mem_cons_self _ _))
    subst hempty
    rw [List.append_nil]
    have h1 := retention_noop A N hlen
    rw [h1]
    rw [show ((A, 0) : List (String × Entry) × Nat).1 = A from rfl]
    rw [retention_noop A N hlen]
  · push_neg at hlen
    -- kept names of the first retention
    have hK1nd : (jsonKeys (retentionList A N).1).Nodup := by
      rw [jsonKeys_retention]
      exact hKnd.filter _
    have hK1len : (jsonKeys (retentionList A N).1).length = N := by
      rw [length_jsonKeys_retention A N hknd]
      exact min_eq_left (le_of_lt hlen)
    have hEnames : jsonKeys extras = keys extras := by
      rw [jsonKeys, List.filter_eq_self]
      intro a ha
      rw [keys] at ha
      obtain ⟨q, hq1, hq2⟩ := List.mem_map.mp ha
      exact hq2 ▸ hjson q hq1
    have hKA : jsonKeys ((retentionList A N).1 ++ extras) =
        jsonKeys (retentionList A N).1 ++ keys extras := by
      rw [jsonKeys_append, hEnames]
    have hdisj : ∀ e ∈ keys extras, e ∉ jsonKeys (retentionList A N).1 := by
      intro e he hmem
      rw [keys] at he
      obtain ⟨q, hq1, hq2⟩ := List.mem_map.mp he
      exact hnot q hq1 (hq2 ▸ jsonKeys_sub_keys _ _ hmem)
    have hKAnd : (jsonKeys ((retentionList A N).1 ++ extras)).Nodup := by
      rw [hKA]
      refine List.Nodup.append hK1nd hextnd ?_
      intro x hx hx2
      exact hdisj x hx2 hx
    have hKAlen : N ≤ (jsonKeys ((retentionList A N).1 ++ extras)).length := by
      rw [hKA, List.length_append, hK1len]
      exact Nat.le_add_right N _
    -- the kept names are exactly the top N of the enlarged name set
    have hchar : ∀ n, n ∈ (sortDescNames
        (jsonKeys ((retentionList A N).1 ++ extras))).take N ↔
        n ∈ jsonKeys (retentionList A N).1 := by
      apply topN_unique _ N hKAnd _ hK1nd
      · intro x hx
        rw [hKA]
        exact List.mem_append_left _ hx
      · rw [hK1len]
        exact (min_eq_left hKAlen).symm
      · intro x hx b hb hbx
        have hbE : b ∈ keys extras := by
          rw [hKA] at hb
          rcases List.mem_append.mp hb with h | h
          · exact absurd h hbx
          · exact h
        obtain ⟨q, hq1, hq2⟩ := List.mem_map.mp (by rw [keys] at hbE; exact hbE)
        have hbA : b ∈ jsonKeys A := hq2 ▸ hsub q hq1
        have hbK1 : b ∉ jsonKeys (retentionList A N).1 := fun hbm =>
          hnot q hq1 (hq2 ▸ jsonKeys_sub_keys _ _ hbm)
        exact retention_dominates A N hKnd x hx b hbA hbK1
    -- conclude: the second retention keeps the first result and drops extras
    have hfst : ∀ (B : List (String × Entry)),
        (retentionList B N).1 = B.filter
          (fun p => !((sortDescNames (jsonKeys B)).drop N).contains p.1) :=
      fun B => rfl
    rw [hfst, List.filter_append]
    have hone : (retentionList A N).1.filter
        (fun p => !((sortDescNames
          (jsonKeys ((retentionList A N).1 ++ extras))).drop N).contains p.1) =
        (retentionList A N).1 := by
      rw [List.filter_eq_self]
      intro p hp
      have hnd2 : p.1 ∉ (sortDescNames
          (jsonKeys ((retentionList A N).1 ++ extras))).drop N := by
        intro hdrop
        have hpj : isJson p.1 = true := doomed_isJson _ N p.1 hdrop
        have hpk : p.1 ∈ jsonKeys (retentionList A N).1 := by
          rw [mem_jsonKeys_iff]
          refine ⟨?_, hpj⟩
          rw [keys]
          exact List.mem_map_of_mem Prod.fst hp
        have := take_not_drop _ N hKAnd p.1 ((hchar p.1).mpr hpk)
        exact this hdrop
      simp [List.elem_iff, hnd2]
    have htwo : extras.filter
        (fun p => !((sortDescNames
          (jsonKeys ((retentionList A N).1 ++ extras))).drop N).contains p.1) =
        [] := by
      rw [List.filter_eq_nil]
      intro p hp
      have hpE : p.1 ∈ keys extras := by
        rw [keys]
        exact List.mem_map_of_mem Prod.fst hp
      have hpKA : p.1 ∈ jsonKeys ((retentionList A N).1 ++ extras) := by
        rw [hKA]
        exact List.mem_append_right _ hpE
      have hpnotK1 : p.1 ∉ jsonKeys (retentionList A N).1 := fun hm =>
        hnot p hp (jsonKeys_sub_keys _ _ hm)
      have hpdrop : p.1 ∈ (sortDescNames
          (jsonKeys ((retentionList A N).1 ++ extras))).drop N := by
        rcases (mem_take_or_drop _ N p.1).mp hpKA with h | h
        · exact absurd ((hchar p.1).mp h) hpnotK1
        · exact h
      simp [List.elem_iff, hpdrop]
    rw [hone, htwo, List.append_nil]

/-! ## Stability of the merge-and-retain pipeline (towards C4) -/

theorem lookupE_mem (es : List (String × Entry)) (n : String) (e : Entry)
    (h : lookupE es n = some e) : (n, e) ∈ es := by
  induction es with
  | nil => simp [lookupE] at h
  | cons p rest ih =>
      obtain ⟨m, e0⟩ := p
      by_cases hm : m = n
      · subst hm
        rw [lookupE, if_pos rfl] at h
        rw [Option.some.inj h]
        exact List.mem_cons_self _ _
      · rw [lookupE, if_neg hm] at h
        exact List.mem_cons_of_mem _ (ih h)

theorem wfList_mem (es : List (String × Entry)) (n : String) (e : Entry)
    (hwf : wfList es = true) (h : (n, e) ∈ es) : Entry.wfE e = true := by
  induction es with
  | nil => simp at h
  | cons p rest ih =>
      rw [wfList_cons_iff] at hwf
      rcases List.mem_cons.mp h with hhead | htail
      · rw [show e = p.2 from congrArg Prod.snd hhead]
        exact hwf.1
      · exact ih hwf.2 htail

theorem mergeOneModule_not_dir (ph res : Option Entry) (name : String)
    (h : isDirO ph = false) : mergeOneModule ph res name = (res, []) := by
  rw [mergeOneModule, if_neg (by rw [h]; exact Bool.noConfusion)]

theorem retentionOneModule_not_dir (res : Option Entry) (N : Nat)
    (name : String) (h : isDirO (getChild res "history") = false) :
    (retentionOneModule res N name).1 = res := by
  rw [retentionOneModule]
  match h2 : getChild res "history" with
  | some (.dir es) => rw [h2, isDirO] at h; exact Bool.noConfusion h
  | some (.file c) => rfl
  | none => rfl

theorem copyJsonFs_dir_eq (pes : List (String × Entry)) (dst : Option Entry)
    (skip : Bool) :
    copyJsonFs (some (.dir pes)) dst skip =
      (.dir (copyJsonFiles pes (ensureDirEs dst) skip).1,
       (copyJsonFiles pes (ensureDirEs dst) skip).2) := rfl

/-- The history listing a results tree holds is duplicate-free when the
tree is well-formed. -/
theorem history_keys_nodup (res : Option Entry) (hwf : wfO res = true)
    (hs : List (String × Entry))
    (h : getChild res "history" = some (.dir hs)) : (keys hs).Nodup := by
  match res with
  | none => simp [getChild] at h
  | some (.file c) => simp [getChild] at h
  | some (.dir rs) =>
      rw [show getChild (some (Entry.dir rs)) "history" =
        lookupE rs "history" from rfl] at h
      have hmem := lookupE_mem rs "history" _ h
      have hwf2 : Entry.wfE (.dir rs) = true := hwf
      rw [wfE_dir_iff] at hwf2
      have := wfList_mem rs "history" _ hwf2.2 hmem
      rw [wfE_dir_iff] at this
      exact this.1

/-- Retention applied twice is retention applied once (the kept set is
already within the maximum). -/
theorem retention_module_idem (res : Option Entry) (N : Nat) (name : String)
    (hwf : wfO res = true) :
    (retentionOneModule (retentionOneModule res N name).1 N name).1 =
      (retentionOneModule res N name).1 := by
  rcases Bool.eq_false_or_eq_true (isDirO (getChild res "history")) with h | h
  · obtain ⟨hs, hhs⟩ : ∃ hs, getChild res "history" = some (.dir hs) := by
      match h2 : getChild res "history" with
      | some (.dir hs) => exact ⟨hs, rfl⟩
      | some (.file c) => rw [h2] at h; simp [isDirO] at h
      | none => rw [h2] at h; simp [isDirO] at h
    have hnd : (keys hs).Nodup := history_keys_nodup res hwf hs hhs
    have h1 := retentionOneModule_of_dir res N name hs hhs
    rw [h1]
    have hkept : (jsonKeys (retentionList hs N).1).length ≤ N := by
      rw [length_jsonKeys_retention hs N hnd]
      exact min_le_left _ _
    have h2 : getChild (some (Entry.dir (setEntry (ensureDirEs res) "history"
        (.dir (retentionList hs N).1)))) "history" =
        some (.dir (retentionList hs N).1) := by
      show lookupE _ "history" = _
      rw [lookupE_setEntry_self]
    rw [retentionOneModule_of_dir _ N name _ h2]
    rw [show retentionList (retentionList hs N).1 N =
      ((retentionList hs N).1, 0) from retention_noop _ N hkept]
    show some (Entry.dir (setEntry (setEntry (ensureDirEs res) "history"
      (Entry.dir (retentionList hs N).1)) "history"
      (Entry.dir (retentionList hs N).1))) = _
    rw [setEntry_setEntry]
  · rw [retentionOneModule_not_dir res N name h,
      retentionOneModule_not_dir res N name h]

/-- Running the merge-then-retain pipeline a second time over its own
output restores exactly the same results tree: the previously pruned
previous-run entries are re-copied and pruned again. -/
theorem merge_retain_stable (pes : List (String × Entry)) (res : Option Entry)
    (name : String) (N : Nat)
    (hwfPh : Entry.wfE (.dir pes) = true) (hwfRes : wfO res = true) :
    (retentionOneModule (mergeOneModule (some (.dir pes))
      (retentionOneModule (mergeOneModule (some (.dir pes)) res name).1 N
        name).1 name).1 N name).1 =
    (retentionOneModule (mergeOneModule (some (.dir pes)) res name).1 N
      name).1 := by
  have hpes : (keys pes).Nodup := ((wfE_dir_iff pes).mp hwfPh).1
  have hd0nd : (keys (ensureDirEs (getChild res "history"))).Nodup := by
    match h : getChild res "history" with
    | some (.dir hs) => exact history_keys_nodup res hwfRes hs h
    | some (.file c) => simp [ensureDirEs, keys]
    | none => simp [ensureDirEs, keys]
  have hAnd : (keys (copyJsonFiles pes
      (ensureDirEs (getChild res "history")) true).1).Nodup :=
    copy_preserves_nodup_keys pes _ true hd0nd
  -- run 1
  have hm1 : (mergeOneModule (some (.dir pes)) res name).1 =
      some (.dir (setEntry (ensureDirEs res) "history"
        (.dir (copyJsonFiles pes (ensureDirEs (getChild res "history"))
          true).1))) := by
    rw [mergeOneModule_of_dir (some (.dir pes)) res name rfl, copyJsonFs_dir_eq]
  have hg1 : getChild (mergeOneModule (some (.dir pes)) res name).1
      "history" = some (.dir (copyJsonFiles pes
        (ensureDirEs (getChild res "history")) true).1) := by
    rw [hm1]
    show lookupE _ "history" = _
    rw [lookupE_setEntry_self]
  have hr1 : (retentionOneModule (mergeOneModule (some (.dir pes)) res
      name).1 N name).1 =
      some (.dir (setEntry (ensureDirEs res) "history"
        (.dir (retentionList (copyJsonFiles pes
          (ensureDirEs (getChild res "history")) true).1 N).1))) := by
    rw [retentionOneModule_of_dir _ N name _ hg1, hm1]
    show some (Entry.dir (setEntry (setEntry (ensureDirEs res) "history" _)
      "history" _)) = _
    rw [setEntry_setEntry]
  -- run 2: merge re-adds the pruned previous entries
  have hg2 : getChild (retentionOneModule (mergeOneModule (some (.dir pes))
      res name).1 N name).1 "history" =
      some (.dir (retentionList (copyJsonFiles pes
        (ensureDirEs (getChild res "history")) true).1 N).1) := by
    rw [hr1]
    show lookupE _ "history" = _
    rw [lookupE_setEntry_self]
  have hcopy2 : copyJsonFiles pes (retentionList (copyJsonFiles pes
      (ensureDirEs (getChild res "history")) true).1 N).1 true =
      ((retentionList (copyJsonFiles pes
        (ensureDirEs (getChild res "history")) true).1 N).1 ++
        newJson pes (retentionList (copyJsonFiles pes
          (ensureDirEs (getChild res "history")) true).1 N).1,
       (newJson pes (retentionList (copyJsonFiles pes
          (ensureDirEs (getChild res "history")) true).1 N).1).length) :=
    copy_skip_append pes _ hpes
  have hm2 : (mergeOneModule (some (.dir pes))
      (retentionOneModule (mergeOneModule (some (.dir pes)) res name).1 N
        name).1 name).1 =
      some (.dir (setEntry (setEntry (ensureDirEs res) "history"
        (.dir (retentionList (copyJsonFiles pes
          (ensureDirEs (getChild res "history")) true).1 N).1)) "history"
        (.dir ((retentionList (copyJsonFiles pes
          (ensureDirEs (getChild res "history")) true).1 N).1 ++
          newJson pes (retentionList (copyJsonFiles pes
            (ensureDirEs (getChild res "history")) true).1 N).1)))) := by
    rw [mergeOneModule_of_dir (some (.dir pes)) _ name rfl,
      copyJsonFs_dir_eq, hg2]
    rw [show ensureDirEs (some (Entry.dir (retentionList (copyJsonFiles pes
      (ensureDirEs (getChild res "history")) true).1 N).1)) =
      (retentionList (copyJsonFiles pes
        (ensureDirEs (getChild res "history")) true).1 N).1 from rfl]
    rw [hcopy2, hr1]
    rfl
  have hg3 : getChild (mergeOneModule (some (.dir pes))
      (retentionOneModule (mergeOneModule (some (.dir pes)) res name).1 N
        name).1 name).1 "history" =
      some (.dir ((retentionList (copyJsonFiles pes
        (ensureDirEs (getChild res "history")) true).1 N).1 ++
        newJson pes (retentionList (copyJsonFiles pes
          (ensureDirEs (getChild res "history")) true).1 N).1)) := by
    rw [hm2]
    show lookupE _ "history" = _
    rw [lookupE_setEntry_self]
  -- the second retention deletes exactly the re-added entries
  have hrestore : (retentionList ((retentionList (copyJsonFiles pes
      (ensureDirEs (getChild res "history")) true).1 N).1 ++
      newJson pes (retentionList (copyJsonFiles pes
        (ensureDirEs (getChild res "history")) true).1 N).1) N).1 =
      (retentionList (copyJsonFiles pes
        (ensureDirEs (getChild res "history")) true).1 N).1 := by
    apply retention_restore _ _ N hAnd
    · exact filter_keys_nodup pes _ hpes
    · intro p hp
      have hpr := (List.mem_filter.mp hp).2
      match p, hpr with
      | (n, .file c), hpr =>
          exact (Bool.and_eq_true_iff.mp hpr).1
      | (n, .dir d), hpr => exact Bool.noConfusion hpr
    · intro p hp
      have hpm := List.mem_of_mem_filter hp
      have hpr := (List.mem_filter.mp hp).2
      match p, hpm, hpr with
      | (n, .file c), hpm, hpr =>
          rw [mem_jsonKeys_iff]
          refine ⟨?_, (Bool.and_eq_true_iff.mp hpr).1⟩
          rw [← lookupE_isSome_iff_mem_keys]
          exact copy_key_present pes _ true n c hpm
            (Bool.and_eq_true_iff.mp hpr).1
      | (n, .dir d), hpm, hpr => exact Bool.noConfusion hpr
    · intro p hp
      have hpr := (List.mem_filter.mp hp).2
      match p, hpr with
      | (n, .file c), hpr =>
          have h2 := (Bool.and_eq_true_iff.mp hpr).2
          rw [Bool.not_eq_eq_eq_not, Bool.not_true] at h2
          rw [← lookupE_isSome_iff_mem_keys]
          rw [show hasKey (retentionList (copyJsonFiles pes
            (ensureDirEs (getChild res "history")) true).1 N).1 n =
            (lookupE (retentionList (copyJsonFiles pes
              (ensureDirEs (getChild res "history")) true).1 N).1 n).isSome
            from rfl] at h2
          rw [h2]
          exact Bool.noConfusion
      | (n, .dir d), hpr => exact Bool.noConfusion hpr
  rw [retentionOneModule_of_dir _ N name _ hg3, hm2]
  show some (Entry.dir (setEntry (setEntry (setEntry (ensureDirEs res)
    "history" _) "history" _) "history" _)) = _
  rw [setEntry_setEntry, setEntry_setEntry, hrestore, hr1]

theorem getChild_wf (res : Option Entry) (n : String) (e : Entry)
    (hwf : wfO res = true) (h : getChild res n = some e) :
    Entry.wfE e = true := by
  match res with
  | none => simp [getChild] at h
  | some (.file c) => simp [getChild] at h
  | some (.dir rs) =>
      rw [show getChild (some (Entry.dir rs)) n = lookupE rs n from rfl] at h
      exact wfList_mem rs n e ((wfE_dir_iff rs).mp hwf).2 (lookupE_mem rs n e h)

theorem ensureDirEs_wf (res : Option Entry) (hwf : wfO res = true) :
    Entry.wfE (.dir (ensureDirEs res)) = true := by
  match res with
  | none => rfl
  | some (.file c) => rfl
  | some (.dir rs) => exact hwf

theorem ensureChild_wf (res : Option Entry) (n : String)
    (hwf : wfO res = true) :
    Entry.wfE (.dir (ensureDirEs (getChild res n))) = true := by
  match h : getChild res n with
  | none => rfl
  | some (.file c) => rfl
  | some (.dir hs) => exact getChild_wf res n _ hwf h

theorem copy_wfE (pes dst : List (String × Entry)) (skip : Bool)
    (hdst : Entry.wfE (.dir dst) = true) :
    Entry.wfE (.dir (copyJsonFiles pes dst skip).1) = true := by
  rw [wfE_dir_iff] at hdst ⊢
  exact ⟨copy_preserves_nodup_keys pes dst skip hdst.1,
    copy_preserves_wfList pes dst skip hdst.2⟩

theorem mergeOneModule_wf (ph res : Option Entry) (name : String)
    (hph : wfO ph = true) (hres : wfO res = true) :
    wfO (mergeOneModule ph res name).1 = true := by
  rcases Bool.eq_false_or_eq_true (isDirO ph) with h | h
  · obtain ⟨pes, rfl⟩ : ∃ pes, ph = some (.dir pes) := by
      match ph with
      | some (.dir pes) => exact ⟨pes, rfl⟩
      | some (.file c) => simp [isDirO] at h
      | none => simp [isDirO] at h
    rw [mergeOneModule_of_dir (some (.dir pes)) res name rfl,
      copyJsonFs_dir_eq]
    show Entry.wfE (.dir (setEntry (ensureDirEs res) "history" _)) = true
    apply setEntry_wfE_dir _ _ _ (ensureDirEs_wf res hres)
    exact copy_wfE pes _ true (ensureChild_wf res "history" hres)
  · rw [mergeOneModule_not_dir ph res name h]
    exact hres

theorem retentionOneModule_wf (res : Option Entry) (N : Nat) (name : String)
    (hres : wfO res = true) :
    wfO (retentionOneModule res N name).1 = true := by
  match h : getChild res "history" with
  | some (.dir es) =>
      rw [retentionOneModule_of_dir res N name es h]
      show Entry.wfE (.dir (setEntry (ensureDirEs res) "history" _)) = true
      apply setEntry_wfE_dir _ _ _ (ensureDirEs_wf res hres)
      have hwfes : Entry.wfE (.dir es) = true := getChild_wf res _ _ hres h
      rw [wfE_dir_iff] at hwfes ⊢
      refine ⟨filter_keys_nodup es _ hwfes.1, filter_preserves_wfList es _ hwfes.2⟩
  | some (.file c) =>
      rw [retentionOneModule_not_dir res N name (by rw [h]; rfl)]
      exact hres
  | none =>
      rw [retentionOneModule_not_dir res N name (by rw [h]; rfl)]
      exact hres

/-- The assemble merge-and-retain pipeline is stable: applied a second time
to its own output (same previous-pages input, same configuration) it
changes nothing. -/
theorem modulePipe_stable (doM cM : Bool) (ph res : Option Entry)
    (name : String) (N : Nat)
    (hph : wfO ph = true) (hres : wfO res = true)
    (hcm : cM = true → doM = true) :
    modulePipe doM cM ph (modulePipe doM cM ph res name N) name N =
      modulePipe doM cM ph res name N := by
  rcases Bool.eq_false_or_eq_true doM with hd | hd
  · rcases Bool.eq_false_or_eq_true cM with hc | hc
    · rcases Bool.eq_false_or_eq_true (isDirO ph) with hph2 | hph2
      · obtain ⟨pes, rfl⟩ : ∃ pes, ph = some (.dir pes) := by
          match ph with
          | some (.dir pes) => exact ⟨pes, rfl⟩
          | some (.file c) => simp [isDirO] at hph2
          | none => simp [isDirO] at hph2
        simp only [modulePipe, hc, hd, if_true]
        exact merge_retain_stable pes res name N hph hres
      · simp only [modulePipe, hc, hd, if_true,
          mergeOneModule_not_dir ph _ name hph2]
        exact retention_module_idem res N name hres
    · simp only [modulePipe, hc, hd, if_true, Bool.false_eq_true, if_false]
      exact retention_module_idem res N name hres
  · have hc : cM = false := by
      rcases Bool.eq_false_or_eq_true cM with hc | hc
      · rw [hcm hc] at hd
        exact Bool.noConfusion hd
      · exact hc
    simp [modulePipe, hc, hd]

theorem modulePipe_wf (doM cM : Bool) (ph res : Option Entry) (name : String)
    (N : Nat) (hph : wfO ph = true) (hres : wfO res = true) :
    wfO (modulePipe doM cM ph res name N) = true := by
  have h1 : wfO (if cM = true then mergeOneModule ph res name
      else (res, [])).1 = true := by
    rcases Bool.eq_false_or_eq_true cM with hc | hc
    · rw [hc, if_pos rfl]
      exact mergeOneModule_wf ph res name hph hres
    · rw [hc]
      simp only [Bool.false_eq_true, if_false]
      exact hres
  rcases Bool.eq_false_or_eq_true doM with hd | hd
  · simp only [modulePipe, hd, if_true]
    exact retentionOneModule_wf _ N name h1
  · simp only [modulePipe, hd, Bool.false_eq_true, if_false]
    exact h1

/-! ## Stability of the combine phase (towards C4) -/

theorem foldBadges_lookup_notin (mapping : List (String × String))
    (mb : Option Entry) (b : List (String × Entry)) (d : String)
    (hd : ∀ pr ∈ mapping, pr.2 ≠ d) :
    lookupE (mapping.foldl (fun b pr => copyBadge b mb pr.1 pr.2) b) d =
      lookupE b d := by
  induction mapping generalizing b with
  | nil => rfl
  | cons pr rest ih =>
      rw [List.foldl_cons]
      rw [ih _ (fun q hq => hd q (List.mem_cons_of_mem _ hq))]
      exact copyBadge_lookup_ne b mb pr.1 pr.2 d
        (fun h => hd pr (List.mem_cons_self _ _) h.symm)

theorem foldBadges_lookup (mapping : List (String × String))
    (mb : Option Entry) (s d c : String)
    (hsrc : getChild mb s = some (.file c)) :
    ∀ b0, (mapping.map Prod.snd).Nodup → (s, d) ∈ mapping →
    lookupE (mapping.foldl (fun b pr => copyBadge b mb pr.1 pr.2) b0) d =
      some (.file c) := by
  induction mapping with
  | nil => intro b0 _ hmem; simp at hmem
  | cons pr rest ih =>
      intro b0 hnd hmem
      obtain ⟨s0, d0⟩ := pr
      have hnd1 : (rest.map Prod.snd).Nodup := (List.nodup_cons.mp hnd).2
      have hd1 : d0 ∉ rest.map Prod.snd := by
        have := (List.nodup_cons.mp hnd).1
        simpa using this
      rw [List.foldl_cons]
      rcases List.mem_cons.mp hmem with hhead | htail
      · obtain ⟨h1, h2⟩ := Prod.mk.injEq s d s0 d0 ▸ hhead
        subst h1
        subst h2
        rw [foldBadges_lookup_notin rest mb _ d ?hnotin]
        · exact copyBadge_lookup_self b0 mb s d c hsrc
        case hnotin =>
          intro q hq he
          apply hd1
          rw [← he]
          exact List.mem_map_of_mem Prod.snd hq
      · exact ih _ hnd1 htail
theorem foldBadges_id (mapping : List (String × String)) (mb : Option Entry)
    (b0 : List (String × Entry))
    (h : ∀ pr ∈ mapping, copyBadge b0 mb pr.1 pr.2 = b0) :
    mapping.foldl (fun b pr => copyBadge b mb pr.1 pr.2) b0 = b0 := by
  induction mapping with
  | nil => rfl
  | cons pr rest ih =>
      rw [List.foldl_cons, h pr (List.mem_cons_self _ _)]
      exact ih (fun q hq => h q (List.mem_cons_of_mem _ hq))

theorem combineOneModule_not_dir_fst (res : Option Entry)
    (name p o : String) (es : List (String × Entry))
    (h : isDirO res = false) :
    (combineOneModule res name p o es).1 = es := by
  match res with
  | some (.dir rs) => simp [isDirO] at h
  | some (.file c) => rfl
  | none => rfl

/-- The combine step of one module, run over an output listing that already
holds this module's final artifacts, changes nothing. -/
theorem combineOneModule_stable (rs : List (String × Entry))
    (name p o : String) (es : List (String × Entry))
    (hwf : Entry.wfE (.dir rs) = true)
    (d0 : Option Entry)
    (hname : lookupE es name = some (copytree (.dir rs) d0))
    (bs0 : List (String × Entry))
    (hbdir : lookupE es "badges" = some (.dir bs0))
    (hbval : ∀ s d c, (s, d) ∈ badgeMapping name →
      getChild (lookupE rs "badges") s = some (.file c) →
      lookupE bs0 d = some (.file c)) :
    (combineOneModule (some (.dir rs)) name p o es).1 = es := by
  have hsetname : setEntry es name (copytree (.dir rs) (lookupE es name)) =
      es := by
    rw [hname, copytree_idem _ hwf d0]
    exact setEntry_self es name _ hname
  rw [show (combineOneModule (some (.dir rs)) name p o es).1 =
    (match lookupE rs "badges" with
     | some (.dir _) =>
        setEntry (setEntry es name (copytree (.dir rs) (lookupE es name)))
          "badges"
          (.dir ((badgeMapping name).foldl
            (fun b pr => copyBadge b (lookupE rs "badges") pr.1 pr.2)
            (match lookupE (setEntry es name
                (copytree (.dir rs) (lookupE es name))) "badges" with
             | some (.dir bs) => bs
             | _ => [])))
     | _ => setEntry es name (copytree (.dir rs) (lookupE es name)))
    from rfl]
  match hmb : lookupE rs "badges" with
  | some (.dir mbs) =>
      rw [hsetname, hbdir]
      have hfold : (badgeMapping name).foldl
          (fun b pr => copyBadge b (some (Entry.dir mbs)) pr.1 pr.2) bs0 =
          bs0 := by
        apply foldBadges_id
        intro pr hpr
        match hg : getChild (some (Entry.dir mbs)) pr.1 with
        | some (.file c) =>
            have hb := hbval pr.1 pr.2 c (by
              rcases pr with ⟨s, d⟩
              exact hpr) (by rw [hmb]; exact hg)
            rw [copyBadge, hg]
            exact setEntry_self _ _ _ hb
        | some (.dir ds) => rw [copyBadge, hg]
        | none => rw [copyBadge, hg]
      rw [hfold]
      exact setEntry_self es "badges" _ hbdir
  | some (.file c) => exact hsetname
  | none => exact hsetname

theorem combineOneModule_dir_fst (rs : List (String × Entry))
    (name p o : String) (es : List (String × Entry)) :
    (combineOneModule (some (.dir rs)) name p o es).1 =
      (match lookupE rs "badges" with
       | some (.dir _) =>
          setEntry (setEntry es name (copytree (.dir rs) (lookupE es name)))
            "badges"
            (.dir ((badgeMapping name).foldl
              (fun b pr => copyBadge b (lookupE rs "badges") pr.1 pr.2)
              (match lookupE (setEntry es name
                  (copytree (.dir rs) (lookupE es name))) "badges" with
               | some (.dir bs) => bs
               | _ => [])))
       | _ => setEntry es name (copytree (.dir rs) (lookupE es name))) := rfl

theorem combineOneModule_lookup_other (res : Option Entry)
    (name p o : String) (es : List (String × Entry)) (k : String)
    (hk1 : k ≠ name) (hk2 : k ≠ "badges") :
    lookupE (combineOneModule res name p o es).1 k = lookupE es k := by
  match res with
  | none => rfl
  | some (.file c) => rfl
  | some (.dir rs) =>
      rw [combineOneModule_dir_fst]
      match hmb : lookupE rs "badges" with
      | some (.dir mbs) =>
          rw [lookupE_setEntry_ne _ _ _ _ hk2, lookupE_setEntry_ne _ _ _ _ hk1]
      | some (.file c) => rw [lookupE_setEntry_ne _ _ _ _ hk1]
      | none => rw [lookupE_setEntry_ne _ _ _ _ hk1]

theorem combineOneModule_badges_dir (res : Option Entry)
    (name p o : String) (es : List (String × Entry))
    (bs0 : List (String × Entry))
    (hbdir : lookupE es "badges" = some (.dir bs0))
    (hnb : name ≠ "badges") :
    ∃ bs1, lookupE (combineOneModule res name p o es).1 "badges" =
      some (.dir bs1) := by
  match res with
  | none => exact ⟨bs0, hbdir⟩
  | some (.file c) => exact ⟨bs0, hbdir⟩
  | some (.dir rs) =>
      rw [combineOneModule_dir_fst]
      match hmb : lookupE rs "badges" with
      | some (.dir mbs) => exact ⟨_, lookupE_setEntry_self _ _ _⟩
      | some (.file c) =>
          refine ⟨bs0, ?_⟩
          rw [lookupE_setEntry_ne _ _ _ _ (Ne.symm hnb)]
          exact hbdir
      | none =>
          refine ⟨bs0, ?_⟩
          rw [lookupE_setEntry_ne _ _ _ _ (Ne.symm hnb)]
          exact hbdir

theorem combineOneModule_badge_val_preserved (res : Option Entry)
    (name p o : String) (es : List (String × Entry)) (d : String)
    (hd : ∀ pr ∈ badgeMapping name, pr.2 ≠ d)
    (hnb : name ≠ "badges") :
    ∀ bs1 bs0,
      lookupE (combineOneModule res name p o es).1 "badges" =
        some (.dir bs1) →
      lookupE es "badges" = some (.dir bs0) →
      lookupE bs1 d = lookupE bs0 d := by
  intro bs1 bs0 h1 h0
  match res with
  | none =>
      rw [show (combineOneModule none name p o es).1 = es from rfl, h0] at h1
      have h2 := Option.some.inj h1
      rw [Entry.dir.injEq] at h2
      rw [h2]
  | some (.file c) =>
      rw [show (combineOneModule (some (.file c)) name p o es).1 = es
        from rfl, h0] at h1
      have h2 := Option.some.inj h1
      rw [Entry.dir.injEq] at h2
      rw [h2]
  | some (.dir rs) =>
      rw [combineOneModule_dir_fst] at h1
      match hmb : lookupE rs "badges" with
      | some (.dir mbs) =>
          rw [hmb] at h1
          rw [lookupE_setEntry_self] at h1
          have hb1 : bs1 = (badgeMapping name).foldl
              (fun b pr => copyBadge b (some (Entry.dir mbs)) pr.1 pr.2)
              (match lookupE (setEntry es name
                  (copytree (.dir rs) (lookupE es name))) "badges" with
               | some (.dir bs) => bs
               | _ => []) := by
            have := Option.some.inj h1
            rw [Entry.dir.injEq] at this
            exact this.symm
          have hb0 : lookupE (setEntry es name
              (copytree (.dir rs) (lookupE es name))) "badges" =
              some (.dir bs0) := by
            rw [lookupE_setEntry_ne _ _ _ _ (Ne.symm hnb)]
            exact h0
          rw [hb1, hb0]
          exact foldBadges_lookup_notin _ _ _ d hd
      | some (.file c) =>
          rw [hmb] at h1
          rw [lookupE_setEntry_ne _ _ _ _ (Ne.symm hnb), h0] at h1
          have := Option.some.inj h1
          rw [Entry.dir.injEq] at this
          rw [← this]
      | none =>
          rw [hmb] at h1
          rw [lookupE_setEntry_ne _ _ _ _ (Ne.symm hnb), h0] at h1
          have := Option.some.inj h1
          rw [Entry.dir.injEq] at this
          rw [← this]

theorem combineOneModule_establishes_name (rs : List (String × Entry))
    (name p o : String) (es : List (String × Entry))
    (hnb : name ≠ "badges") :
    lookupE (combineOneModule (some (.dir rs)) name p o es).1 name =
      some (copytree (.dir rs) (lookupE es name)) := by
  rw [combineOneModule_dir_fst]
  match hmb : lookupE rs "badges" with
  | some (.dir mbs) =>
      rw [lookupE_setEntry_ne _ _ _ _ hnb, lookupE_setEntry_self]
  | some (.file c) => rw [lookupE_setEntry_self]
  | none => rw [lookupE_setEntry_self]

theorem getChild_file_of_some (o : Option Entry) (s : String) (e : Entry)
    (h : getChild o s = some e) : ∃ ms, o = some (.dir ms) := by
  match o with
  | none => simp [getChild] at h
  | some (.file c) => simp [getChild] at h
  | some (.dir ms) => exact ⟨ms, rfl⟩

theorem combineOneModule_establishes_badges (rs : List (String × Entry))
    (name p o : String) (es : List (String × Entry))
    (s d c : String) (hnd : ((badgeMapping name).map Prod.snd).Nodup)
    (hmem : (s, d) ∈ badgeMapping name)
    (hsrc : getChild (lookupE rs "badges") s = some (.file c))
    (hnb : name ≠ "badges") :
    ∀ bs1, lookupE (combineOneModule (some (.dir rs)) name p o es).1
      "badges" = some (.dir bs1) →
      lookupE bs1 d = some (.file c) := by
  intro bs1 h1
  obtain ⟨mbs, hmbs⟩ := getChild_file_of_some _ s _ hsrc
  rw [combineOneModule_dir_fst, hmbs] at h1
  rw [lookupE_setEntry_self] at h1
  have hb1 : bs1 = (badgeMapping name).foldl
      (fun b pr => copyBadge b (some (Entry.dir mbs)) pr.1 pr.2)
      (match lookupE (setEntry es name
          (copytree (.dir rs) (lookupE es name))) "badges" with
       | some (.dir bs) => bs
       | _ => []) := by
    have := Option.some.inj h1
    rw [Entry.dir.injEq] at this
    exact this.symm
  rw [hb1]
  apply foldBadges_lookup _ _ s d c _ _ hnd hmem
  rw [← hmbs]
  exact hsrc

theorem ensureChildDir_of_dir (es : List (String × Entry)) (n : String)
    (x : List (String × Entry)) (h : lookupE es n = some (.dir x)) :
    ensureChildDir es n = es := by
  rw [ensureChildDir, h]

theorem ensureChildDir_badges (es : List (String × Entry)) (n : String) :
    ∃ bs, lookupE (ensureChildDir es n) n = some (.dir bs) := by
  rw [ensureChildDir]
  match h : lookupE es n with
  | some (.dir bs) => exact ⟨bs, h⟩
  | some (.file c) => exact ⟨[], lookupE_setEntry_self _ _ _⟩
  | none => exact ⟨[], lookupE_setEntry_self _ _ _⟩

/-! ## Projections of `assembleRun` -/

theorem assembleRun_micro (a : AssembleIn) (st : FsState) :
    (assembleRun a st).1.micro =
      modulePipe (truthy a.microResults)
        (truthy a.microResults &&
          (truthy a.previousPagesDir && isDirO st.prev))
        (getChild (getChild st.prev "micro") "history") st.micro "micro"
        a.maxHistory := rfl

theorem assembleRun_integration (a : AssembleIn) (st : FsState) :
    (assembleRun a st).1.integration =
      modulePipe (truthy a.integrationResults)
        (truthy a.integrationResults &&
          (truthy a.previousPagesDir && isDirO st.prev))
        (getChild (getChild st.prev "integration") "history") st.integration
        "integration" a.maxHistory := rfl

theorem assembleRun_prev (a : AssembleIn) (st : FsState) :
    (assembleRun a st).1.prev = st.prev := rfl

theorem assembleRun_output (a : AssembleIn) (st : FsState) :
    (assembleRun a st).1.output = some (.dir (setEntry
      (if truthy a.integrationResults = true then
        combineOneModule (assembleRun a st).1.integration "integration"
          (a.integrationResults.getD "") a.outputDir
          (if truthy a.microResults = true then
            combineOneModule (assembleRun a st).1.micro "micro"
              (a.microResults.getD "") a.outputDir
              (ensureChildDir (ensureDirEs st.output) "badges")
          else (ensureChildDir (ensureDirEs st.output) "badges", [])).1
      else ((if truthy a.microResults = true then
            combineOneModule (assembleRun a st).1.micro "micro"
              (a.microResults.getD "") a.outputDir
              (ensureChildDir (ensureDirEs st.output) "badges")
          else (ensureChildDir (ensureDirEs st.output) "badges", [])).1,
        [])).1
      "metadata.json" (.file (metadataContent a.now a.commitSha)))) := rfl

theorem badge_dst_disjoint :
    ∀ pr ∈ badgeMapping "micro", ∀ qr ∈ badgeMapping "integration",
      qr.2 ≠ pr.2 := by decide

theorem badge_dst_disjoint2 :
    ∀ pr ∈ badgeMapping "integration", ∀ qr ∈ badgeMapping "micro",
      qr.2 ≠ pr.2 := by decide

theorem badge_dst_nodup_micro :
    ((badgeMapping "micro").map Prod.snd).Nodup := by decide

theorem badge_dst_nodup_integration :
    ((badgeMapping "integration").map Prod.snd).Nodup := by decide

/-- A guarded combine step over an output listing that already holds the
module's final artifacts changes nothing. -/
theorem combineStep_stable (doX : Bool) (res : Option Entry)
    (name p o : String) (F : List (String × Entry))
    (hres_wf : wfO res = true)
    (hinv : doX = true → ∀ rs, res = some (.dir rs) →
      (∃ dd, lookupE F name = some (copytree (.dir rs) dd)) ∧
      (∃ bs0, lookupE F "badges" = some (.dir bs0) ∧
        (∀ s d c, (s, d) ∈ badgeMapping name →
          getChild (lookupE rs "badges") s = some (.file c) →
          lookupE bs0 d = some (.file c)))) :
    (if doX = true then combineOneModule res name p o F else (F, [])).1 =
      F := by
  rcases Bool.eq_false_or_eq_true doX with hdo | hdo
  · rw [hdo, if_pos rfl]
    rcases Bool.eq_false_or_eq_true (isDirO res) with hdir | hdir
    · obtain ⟨rs, rfl⟩ : ∃ rs, res = some (.dir rs) := by
        match res with
        | some (.dir rs) => exact ⟨rs, rfl⟩
        | some (.file c) => simp [isDirO] at hdir
        | none => simp [isDirO] at hdir
      obtain ⟨⟨dd, hname⟩, ⟨bs0, hbdir, hbval⟩⟩ := hinv hdo rs rfl
      exact combineOneModule_stable rs name p o F hres_wf dd hname bs0
        hbdir hbval
    · exact combineOneModule_not_dir_fst res name p o F hdir
  · rw [hdo]
    simp

theorem getChild_wfO (res : Option Entry) (n : String)
    (h : wfO res = true) : wfO (getChild res n) = true := by
  match h2 : getChild res n with
  | none => rfl
  | some e => exact getChild_wf res n e h h2

theorem ifcombine_lookup_other (doX : Bool) (res : Option Entry)
    (name p o : String) (es : List (String × Entry)) (k : String)
    (hk1 : k ≠ name) (hk2 : k ≠ "badges") :
    lookupE (if doX = true then combineOneModule res name p o es
      else (es, [])).1 k = lookupE es k := by
  rcases Bool.eq_false_or_eq_true doX with hdo | hdo
  · rw [hdo, if_pos rfl]
    exact combineOneModule_lookup_other res name p o es k hk1 hk2
  · rw [hdo]
    simp

theorem ifcombine_badges_dir (doX : Bool) (res : Option Entry)
    (name p o : String) (es : List (String × Entry))
    (bs0 : List (String × Entry))
    (hb : lookupE es "badges" = some (.dir bs0)) (hnb : name ≠ "badges") :
    ∃ bs1, lookupE (if doX = true then combineOneModule res name p o es
      else (es, [])).1 "badges" = some (.dir bs1) := by
  rcases Bool.eq_false_or_eq_true doX with hdo | hdo
  · rw [hdo, if_pos rfl]
    exact combineOneModule_badges_dir res name p o es bs0 hb hnb
  · rw [hdo]
    simp only [Bool.false_eq_true, if_false]
    exact ⟨bs0, hb⟩

theorem ifcombine_badge_val_preserved (doX : Bool) (res : Option Entry)
    (name p o : String) (es : List (String × Entry)) (d : String)
    (hd : ∀ pr ∈ badgeMapping name, pr.2 ≠ d) (hnb : name ≠ "badges") :
    ∀ bs1 bs0,
      lookupE (if doX = true then combineOneModule res name p o es
        else (es, [])).1 "badges" = some (.dir bs1) →
      lookupE es "badges" = some (.dir bs0) →
      lookupE bs1 d = lookupE bs0 d := by
  intro bs1 bs0 h1 h0
  rcases Bool.eq_false_or_eq_true doX with hdo | hdo
  · rw [hdo, if_pos rfl] at h1
    exact combineOneModule_badge_val_preserved res name p o es d hd hnb
      bs1 bs0 h1 h0
  · rw [hdo] at h1
    simp only [Bool.false_eq_true, if_false] at h1
    rw [h0] at h1
    have h2 := Option.some.inj h1
    rw [Entry.dir.injEq] at h2
    rw [h2]

/-! ## Badge promotion across both categories (C5) -/

theorem modulePipe_badges (doM cM : Bool) (ph : Option Entry)
    (rs bs : List (String × Entry)) (name : String) (N : Nat)
    (hb : lookupE rs "badges" = some (.dir bs)) :
    ∃ rs2, modulePipe doM cM ph (some (.dir rs)) name N = some (.dir rs2) ∧
      lookupE rs2 "badges" = some (.dir bs) := by
  obtain ⟨rs1, h1, hb1⟩ : ∃ rs1,
      (if cM = true then mergeOneModule ph (some (.dir rs)) name
        else (some (.dir rs), [])).1 = some (.dir rs1) ∧
      lookupE rs1 "badges" = some (.dir bs) := by
    rcases Bool.eq_false_or_eq_true cM with hc | hc
    · rw [hc, if_pos rfl]
      obtain ⟨rs1, h1, h2⟩ := mergeOneModule_badges ph rs name
      exact ⟨rs1, h1, by rw [h2, hb]⟩
    · rw [hc]
      simp only [Bool.false_eq_true, if_false]
      exact ⟨rs, rfl, hb⟩
  obtain ⟨rs2, h2, hb2⟩ : ∃ rs2,
      (if doM = true then retentionOneModule (if cM = true then
          mergeOneModule ph (some (.dir rs)) name
        else (some (.dir rs), [])).1 N name
      else ((if cM = true then mergeOneModule ph (some (.dir rs)) name
        else (some (.dir rs), [])).1, [])).1 = some (.dir rs2) ∧
      lookupE rs2 "badges" = some (.dir bs) := by
    rcases Bool.eq_false_or_eq_true doM with hd | hd
    · rw [hd, if_pos rfl, h1]
      obtain ⟨rs2, h2, h3⟩ := retentionOneModule_badges rs1 N name
      exact ⟨rs2, h2, by rw [h3, hb1]⟩
    · rw [hd]
      simp only [Bool.false_eq_true, if_false]
      exact ⟨rs1, h1, hb1⟩
  exact ⟨rs2, h2, hb2⟩

/-- C5: for every configured category whose results directory exists and
holds a `badges/` subdirectory, each (source, destination) pair of that
category's fixed badge mapping for which the source badge file exists is
copied into the shared output `badges/` directory under the destination
name — stated for the micro category (whose delivered badges survive the
subsequent integration combine step, the two mappings' destination names
being disjoint) and for the integration category; a pair whose source badge
file is absent is silently skipped (the promotion step leaves the badges
directory unchanged for it); the output `badges` entry is always a
directory; in particular the integration category's `last-run-badge.json`
is mapped to `integration-last-run-badge.json`. -/
theorem badge_promotion_spec (a : AssembleIn) (st : FsState) :
    (∀ b mb srcN dstN, getChild mb srcN = none →
      copyBadge b mb srcN dstN = b) ∧
    ("last-run-badge.json", "integration-last-run-badge.json") ∈
      badgeMapping "integration" ∧
    isDirO (getChild (assembleRun a st).1.output "badges") = true ∧
    (∀ rs bs, truthy a.microResults = true →
      st.micro = some (.dir rs) →
      lookupE rs "badges" = some (.dir bs) →
      ∀ srcN dstN c bout, (srcN, dstN) ∈ badgeMapping "micro" →
        lookupE bs srcN = some (.file c) →
        getChild (assembleRun a st).1.output "badges" = some (.dir bout) →
        lookupE bout dstN = some (.file c)) ∧
    (∀ rs bs, truthy a.integrationResults = true →
      st.integration = some (.dir rs) →
      lookupE rs "badges" = some (.dir bs) →
      ∀ srcN dstN c bout, (srcN, dstN) ∈ badgeMapping "integration" →
        lookupE bs srcN = some (.file c) →
        getChild (assembleRun a st).1.output "badges" = some (.dir bout) →
        lookupE bout dstN = some (.file c)) := by
  have hgc : ∀ (X : List (String × Entry)) (k : String),
      getChild (some (Entry.dir X)) k = lookupE X k := fun X k => rfl
  refine ⟨fun b mb s d h => copyBadge_skip b mb s d h, by decide, ?_, ?_, ?_⟩
  · -- the badges entry of the output directory is always a directory
    obtain ⟨bs0, hb0⟩ := ensureChildDir_badges (ensureDirEs st.output)
      "badges"
    obtain ⟨bsM1, hbM1⟩ := ifcombine_badges_dir (truthy a.microResults)
      ((assembleRun a st).1.micro) "micro" (a.microResults.getD "")
      a.outputDir (ensureChildDir (ensureDirEs st.output) "badges") bs0 hb0
      (by decide)
    obtain ⟨bsI1, hbI1⟩ := ifcombine_badges_dir (truthy a.integrationResults)
      ((assembleRun a st).1.integration) "integration"
      (a.integrationResults.getD "") a.outputDir
      ((if truthy a.microResults = true then
        combineOneModule ((assembleRun a st).1.micro) "micro"
          (a.microResults.getD "") a.outputDir
          (ensureChildDir (ensureDirEs st.output) "badges")
      else (ensureChildDir (ensureDirEs st.output) "badges", [])).1)
      bsM1 hbM1 (by decide)
    rw [assembleRun_output, hgc, lookupE_setEntry_ne _ _ _ _ (by decide),
      hbI1]
    rfl
  · -- micro delivery, preserved through the integration combine step
    intro rs bs hm hrs hbs srcN dstN c bout hmem hlook hbout
    obtain ⟨rs2, hM0, hb2⟩ := modulePipe_badges (truthy a.microResults)
      (truthy a.microResults && (truthy a.previousPagesDir && isDirO st.prev))
      (getChild (getChild st.prev "micro") "history") rs bs "micro"
      a.maxHistory hbs
    have hM : (assembleRun a st).1.micro = some (.dir rs2) := by
      rw [assembleRun_micro, hrs]
      exact hM0
    obtain ⟨bs0, hb0⟩ := ensureChildDir_badges (ensureDirEs st.output)
      "badges"
    obtain ⟨bsM1, hbM1⟩ := ifcombine_badges_dir (truthy a.microResults)
      ((assembleRun a st).1.micro) "micro" (a.microResults.getD "")
      a.outputDir (ensureChildDir (ensureDirEs st.output) "badges") bs0 hb0
      (by decide)
    have hsrc : getChild (lookupE rs2 "badges") srcN = some (.file c) := by
      rw [hb2]
      exact hlook
    have hbM1x := hbM1
    rw [hm, if_pos rfl, hM] at hbM1x
    have hval : lookupE bsM1 dstN = some (.file c) :=
      combineOneModule_establishes_badges rs2 "micro"
        (a.microResults.getD "") a.outputDir
        (ensureChildDir (ensureDirEs st.output) "badges") srcN dstN c
        badge_dst_nodup_micro hmem hsrc (by decide) bsM1 hbM1x
    rw [assembleRun_output, hgc, lookupE_setEntry_ne _ _ _ _ (by decide)]
      at hbout
    have hpres := ifcombine_badge_val_preserved (truthy a.integrationResults)
      ((assembleRun a st).1.integration) "integration"
      (a.integrationResults.getD "") a.outputDir
      ((if truthy a.microResults = true then
        combineOneModule ((assembleRun a st).1.micro) "micro"
          (a.microResults.getD "") a.outputDir
          (ensureChildDir (ensureDirEs st.output) "badges")
      else (ensureChildDir (ensureDirEs st.output) "badges", [])).1)
      dstN (fun pr hpr => badge_dst_disjoint (srcN, dstN) hmem pr hpr)
      (by decide) bout bsM1 hbout hbM1
    exact hpres.trans hval
  · -- integration delivery
    intro rs bs hi hrs hbs srcN dstN c bout hmem hlook hbout
    obtain ⟨rs2, hI0, hb2⟩ := modulePipe_badges (truthy a.integrationResults)
      (truthy a.integrationResults &&
        (truthy a.previousPagesDir && isDirO st.prev))
      (getChild (getChild st.prev "integration") "history") rs bs
      "integration" a.maxHistory hbs
    have hI : (assembleRun a st).1.integration = some (.dir rs2) := by
      rw [assembleRun_integration, hrs]
      exact hI0
    have hsrc : getChild (lookupE rs2 "badges") srcN = some (.file c) := by
      rw [hb2]
      exact hlook
    rw [assembleRun_output, hgc, lookupE_setEntry_ne _ _ _ _ (by decide),
      hi, if_pos rfl, hI] at hbout
    exact combineOneModule_establishes_badges rs2 "integration"
      (a.integrationResults.getD "") a.outputDir
      ((if truthy a.microResults = true then
        combineOneModule ((assembleRun a st).1.micro) "micro"
          (a.microResults.getD "") a.outputDir
          (ensureChildDir (ensureDirEs st.output) "badges")
      else (ensureChildDir (ensureDirEs st.output) "badges", [])).1)
      srcN dstN c badge_dst_nodup_integration hmem hsrc (by decide)
      bout hbout

theorem badge_promotion_spec_witness :
    lookupE bW5 "performance-badge.json" = some (Entry.file "pm") ∧
    lookupE bW5 "integration-last-run-badge.json" =
      some (Entry.file "lrb") :=
  ⟨(badge_promotion_spec aW5 stW5).2.2.2.1 rsW5 bsW5 (by decide) rfl rfl
      "performance-badge.json" "performance-badge.json" "pm" bW5
      (by decide) rfl rfl,
   (badge_promotion_spec aW5 stW5).2.2.2.2 rsW bsW (by decide) rfl rfl
      "last-run-badge.json" "integration-last-run-badge.json" "lrb" bW5
      (by decide) rfl rfl⟩

/-- C4: the combine phase is idempotent: running `assemble` a second time
with identical inputs (same result paths, snapshot, commit SHA, output
directory, retention maximum; only the clock advanced) over the state the
first run left produces an output directory identical to the first run's,
except that `metadata.json` now carries the second run's timestamp — run
one's `metadata.json` holds the first timestamp, and every other entry of
the output tree is unchanged. -/
theorem assemble_combine_idempotent (a a2 : AssembleIn) (st : FsState)
    (hf1 : a2.microResults = a.microResults)
    (hf2 : a2.integrationResults = a.integrationResults)
    (hf3 : a2.previousPagesDir = a.previousPagesDir)
    (hf4 : a2.outputDir = a.outputDir)
    (hf5 : a2.commitSha = a.commitSha)
    (hf6 : a2.maxHistory = a.maxHistory)
    (hwfm : wfO st.micro = true) (hwfi : wfO st.integration = true)
    (hwfp : wfO st.prev = true) :
    (assembleRun a2 (assembleRun a st).1).1.output =
      some (.dir (setEntry (ensureDirEs (assembleRun a st).1.output)
        "metadata.json" (.file (metadataContent a2.now a2.commitSha)))) ∧
    getChild (assembleRun a st).1.output "metadata.json" =
      some (.file (metadataContent a.now a.commitSha)) := by
  set dM := truthy a.microResults with hdMd
  set dI := truthy a.integrationResults with hdId
  set cP := truthy a.previousPagesDir && isDirO st.prev with hcPd
  set PM := getChild (getChild st.prev "micro") "history" with hPMd
  set PI := getChild (getChild st.prev "integration") "history" with hPId
  set M1 := modulePipe dM (dM && cP) PM st.micro "micro" a.maxHistory
    with hM1d
  set I1 := modulePipe dI (dI && cP) PI st.integration "integration"
    a.maxHistory with hI1d
  set E1 := ensureChildDir (ensureDirEs st.output) "badges" with hE1d
  set C3M := (if dM = true then combineOneModule M1 "micro"
    (a.microResults.getD "") a.outputDir E1 else (E1, [])).1 with hC3Md
  set C3I := (if dI = true then combineOneModule I1 "integration"
    (a.integrationResults.getD "") a.outputDir C3M else (C3M, [])).1
    with hC3Id
  set F := setEntry C3I "metadata.json"
    (.file (metadataContent a.now a.commitSha)) with hFd
  -- well-formedness facts
  have hwfPM : wfO PM = true := getChild_wfO _ _ (getChild_wfO _ _ hwfp)
  have hwfPI : wfO PI = true := getChild_wfO _ _ (getChild_wfO _ _ hwfp)
  have hwfM1 : wfO M1 = true :=
    modulePipe_wf dM (dM && cP) PM st.micro "micro" a.maxHistory hwfPM hwfm
  have hwfI1 : wfO I1 = true :=
    modulePipe_wf dI (dI && cP) PI st.integration "integration" a.maxHistory
      hwfPI hwfi
  -- the second run's pipes restore the first run's results trees
  have hM2 : modulePipe dM (dM && cP) PM M1 "micro" a.maxHistory = M1 := by
    rw [hM1d]
    exact modulePipe_stable dM (dM && cP) PM st.micro "micro" a.maxHistory
      hwfPM hwfm (fun hc => (Bool.and_eq_true_iff.mp hc).1)
  have hI2 : modulePipe dI (dI && cP) PI I1 "integration" a.maxHistory =
      I1 := by
    rw [hI1d]
    exact modulePipe_stable dI (dI && cP) PI st.integration "integration"
      a.maxHistory hwfPI hwfi (fun hc => (Bool.and_eq_true_iff.mp hc).1)
  -- badges directory exists all the way down the combine chain
  obtain ⟨bsE, hbsE⟩ := ensureChildDir_badges (ensureDirEs st.output) "badges"
  have hbsE1 : lookupE E1 "badges" = some (.dir bsE) := hbsE
  obtain ⟨bsM, hbsM0⟩ := ifcombine_badges_dir dM M1 "micro"
    (a.microResults.getD "") a.outputDir E1 bsE hbsE1 (by decide)
  have hbsM : lookupE C3M "badges" = some (.dir bsM) := hbsM0
  obtain ⟨bsI, hbsI0⟩ := ifcombine_badges_dir dI I1 "integration"
    (a.integrationResults.getD "") a.outputDir C3M bsM hbsM (by decide)
  have hbsI : lookupE C3I "badges" = some (.dir bsI) := hbsI0
  have hbF : lookupE F "badges" = some (.dir bsI) := by
    rw [hFd, lookupE_setEntry_ne _ _ _ _ (by decide)]
    exact hbsI
  -- the first run's combine established this module's artifacts in `F`
  have hinvM : dM = true → ∀ rs, M1 = some (.dir rs) →
      (∃ dd, lookupE F "micro" = some (copytree (.dir rs) dd)) ∧
      (∃ bs0, lookupE F "badges" = some (.dir bs0) ∧
        (∀ s d c, (s, d) ∈ badgeMapping "micro" →
          getChild (lookupE rs "badges") s = some (.file c) →
          lookupE bs0 d = some (.file c))) := by
    intro hdM rs hrs
    have hC3Me : C3M = (combineOneModule (some (.dir rs)) "micro"
        (a.microResults.getD "") a.outputDir E1).1 := by
      rw [hC3Md, hdM, if_pos rfl, hrs]
    constructor
    · refine ⟨lookupE E1 "micro", ?_⟩
      have h1 : lookupE F "micro" = lookupE C3I "micro" := by
        rw [hFd]
        exact lookupE_setEntry_ne _ _ _ _ (by decide)
      have h2 : lookupE C3I "micro" = lookupE C3M "micro" := by
        rw [hC3Id]
        exact ifcombine_lookup_other dI I1 "integration" _ _ C3M "micro"
          (by decide) (by decide)
      have h3 : lookupE C3M "micro" =
          some (copytree (.dir rs) (lookupE E1 "micro")) := by
        rw [hC3Me]
        exact combineOneModule_establishes_name rs "micro" _ _ E1 (by decide)
      rw [h1, h2, h3]
    · refine ⟨bsI, hbF, ?_⟩
      intro s d c hmem hsrc
      have h4 : lookupE bsM d = some (.file c) := by
        apply combineOneModule_establishes_badges rs "micro"
          (a.microResults.getD "") a.outputDir E1 s d c
          badge_dst_nodup_micro hmem hsrc (by decide) bsM
        rw [← hC3Me]
        exact hbsM
      have h5 : lookupE bsI d = lookupE bsM d := by
        apply ifcombine_badge_val_preserved dI I1 "integration"
          (a.integrationResults.getD "") a.outputDir C3M d
          (fun qr hq => badge_dst_disjoint (s, d) hmem qr hq) (by decide)
          bsI bsM hbsI0 hbsM
      rw [h5, h4]
  have hinvI : dI = true → ∀ rs, I1 = some (.dir rs) →
      (∃ dd, lookupE F "integration" = some (copytree (.dir rs) dd)) ∧
      (∃ bs0, lookupE F "badges" = some (.dir bs0) ∧
        (∀ s d c, (s, d) ∈ badgeMapping "integration" →
          getChild (lookupE rs "badges") s = some (.file c) →
          lookupE bs0 d = some (.file c))) := by
    intro hdI rs hrs
    have hC3Ie : C3I = (combineOneModule (some (.dir rs)) "integration"
        (a.integrationResults.getD "") a.outputDir C3M).1 := by
      rw [hC3Id, hdI, if_pos rfl, hrs]
    constructor
    · refine ⟨lookupE C3M "integration", ?_⟩
      have h1 : lookupE F "integration" = lookupE C3I "integration" := by
        rw [hFd]
        exact lookupE_setEntry_ne _ _ _ _ (by decide)
      have h3 : lookupE C3I "integration" =
          some (copytree (.dir rs) (lookupE C3M "integration")) := by
        rw [hC3Ie]
        exact combineOneModule_establishes_name rs "integration" _ _ C3M
          (by decide)
      rw [h1, h3]
    · refine ⟨bsI, hbF, ?_⟩
      intro s d c hmem hsrc
      apply combineOneModule_establishes_badges rs "integration"
        (a.integrationResults.getD "") a.outputDir C3M s d c
        badge_dst_nodup_integration hmem hsrc (by decide) bsI
      rw [← hC3Ie]
      exact hbsI
  have hED : ∀ x : List (String × Entry),
      ensureDirEs (some (.dir x)) = x := fun _ => rfl
  constructor
  · rw [assembleRun_output a2 (assembleRun a st).1]
    rw [assembleRun_micro a2 (assembleRun a st).1,
      assembleRun_integration a2 (assembleRun a st).1]
    rw [assembleRun_prev a st]
    rw [assembleRun_output a st]
    rw [assembleRun_micro a st, assembleRun_integration a st]
    rw [hf1, hf2, hf3, hf4, hf6]
    rw [← hdMd, ← hdId, ← hcPd, ← hPMd, ← hPId, ← hM1d, ← hI1d]
    rw [hM2, hI2]
    rw [← hE1d, ← hC3Md, ← hC3Id, ← hFd]
    rw [hED]
    rw [ensureChildDir_of_dir F "badges" bsI hbF]
    rw [combineStep_stable dM M1 "micro" (a.microResults.getD "")
      a.outputDir F hwfM1 hinvM]
    rw [combineStep_stable dI I1 "integration" (a.integrationResults.getD "")
      a.outputDir F hwfI1 hinvI]
  · rw [assembleRun_output a st]
    rw [assembleRun_micro a st, assembleRun_integration a st]
    rw [← hdMd, ← hdId, ← hcPd, ← hPMd, ← hPId, ← hM1d, ← hI1d]
    rw [← hE1d, ← hC3Md, ← hC3Id]
    show lookupE (setEntry C3I "metadata.json" _) "metadata.json" = _
    rw [lookupE_setEntry_self]

theorem assemble_combine_idempotent_witness :
    getChild (assembleRun aW4 stW4).1.output "metadata.json" =
      some (Entry.file (metadataContent "T1" "sha")) :=
  (assemble_combine_idempotent aW4 aW4b stW4 rfl rfl rfl rfl rfl rfl
    (by decide) (by decide) (by decide)).2
